import Mathlib

/-!
Verification of core components of the dinodb educational database engine.

Each section embeds one subsystem of the Go source as Lean definitions
(pure functions over explicit state) and proves properties about them:

* the waits-for graph and its cycle detector (pkg/concurrency/deadlock.go);
* the pager buffer pool (pkg/pager);
* B+Tree leaf insertion and splitting (pkg/btree/leaf.go);
* the extendible hash table (pkg/hash);
* the transaction manager lock acquisition path (pkg/concurrency);
* the write-ahead-log codec (pkg/recovery/log.go) and the redo pass of the
  recovery manager (pkg/recovery/recovery_manager.go).

Machine integers from the Go source (int64) are modelled as Int, and counters
that the code keeps non-negative (list lengths, key counts, depths) as Nat.
Errors are modelled with Except or Option.
-/

namespace DinoDB

/-! ## Waits-for graph: pkg/concurrency/deadlock.go

Transactions are referenced by pointer in the source; pointer identity is
modelled by a transaction id of type Nat. -/

/-- Transaction identity (pointer identity of the Go Transaction struct). -/
abbrev TxId := Nat

/-- An edge of the waits-for graph; the first field waits for the second
(struct Edge in deadlock.go). -/
structure Edge where
  efrom : TxId
  eto : TxId
deriving DecidableEq

/-- AddEdge appends one edge to the edge slice (deadlock.go, AddEdge). -/
def AddEdge (edges : List Edge) (f t : TxId) : List Edge :=
  edges ++ [⟨f, t⟩]

/-- Embedding of removeHelper: overwrite index i with the final element and
drop the final slot (deadlock.go, removeHelper). -/
def removeHelper (l : List Edge) (i : Nat) : List Edge :=
  match l.getLast? with
  | none => []
  | some x => (l.set i x).dropLast

/-- RemoveEdge removes one copy of the given edge, erroring when no copy
exists (deadlock.go, RemoveEdge). -/
def RemoveEdge (edges : List Edge) (f t : TxId) : Except String (List Edge) :=
  match edges.findIdx? (fun e => e == ⟨f, t⟩) with
  | some i => .ok (removeHelper edges i)
  | none => .error "edge not found"

/-- Embedding of the recursive dfs helper (deadlock.go, dfs). The Go map
seen is modelled as the list of marked transactions in insertion order; only
membership is ever consulted. The fuel argument bounds the recursion depth,
which in the source is bounded because every recursive call marks one
previously unmarked transaction. -/
def dfs (edges : List Edge) : Nat → TxId → List TxId → Bool
  | 0, _, _ => false
  | fuel + 1, v, seen =>
    match edges.find? (fun e => e.efrom == v) with
    | none => false
    | some e =>
      if seen.contains e.eto then true
      else dfs edges fuel e.eto (seen ++ [e.eto])

/-- DetectCycle returns false on an empty graph and otherwise runs dfs from
the source of the first edge (deadlock.go, DetectCycle). The fuel
length + 1 dominates the depth the Go recursion can reach. -/
def DetectCycle (edges : List Edge) : Bool :=
  match edges with
  | [] => false
  | e :: _ => dfs edges (edges.length + 1) e.efrom []

/-- One mutation of the waits-for graph, as offered by its public interface. -/
inductive GraphOp where
  | add (f t : TxId)
  | remove (f t : TxId)

/-- Apply one graph operation; a failing RemoveEdge leaves the edges
unchanged, as in the source. -/
def applyOp (edges : List Edge) : GraphOp → List Edge
  | .add f t => AddEdge edges f t
  | .remove f t =>
    match RemoveEdge edges f t with
    | .ok es => es
    | .error _ => edges

/-- The edge multiset obtained by running a sequence of AddEdge and
RemoveEdge calls on the initially empty graph (deadlock.go, NewGraph). -/
def buildGraph (ops : List GraphOp) : List Edge :=
  ops.foldl applyOp []

/-! ## Pager: pkg/pager

Frames of the fixed buffer pool are identified by Nat indices; the three
intrusive lists become lists of frame indices (head first, so PushTail is
an append and PopSelf is an erase), and the Go page-table map becomes an
association list from page numbers to frame indices. The bytes of a page
are not modelled; the per-frame metadata (pagenum, pin count, dirty flag)
is. Disk writes are modelled by clearing the dirty flag; a disk read can be
told to fail through an explicit Boolean oracle. -/

/-- MaxPagesInBuffer from pkg/config/default.go. -/
def MaxPagesInBuffer : Nat := 32

/-- NoPage sentinel pagenum (pkg/pager, NoPage). -/
def NoPage : Int := -1

/-- Error outcomes of the pager operations. -/
inductive PagerErr where
  | ranOutOfPages
  | invalidPagenum
  | pinUnderflow
  | ioError
deriving DecidableEq

/-- Metadata of one buffer frame (struct Page in pkg/pager). -/
structure Frame where
  pagenum : Int
  pinCount : Int
  dirty : Bool
deriving DecidableEq

/-- State of the pager (struct Pager in pkg/pager). -/
structure PagerState where
  numPages : Int
  frames : Nat → Frame
  freeList : List Nat
  unpinnedList : List Nat
  pinnedList : List Nat
  pageTable : List (Int × Nat)

/-- Overwrite the metadata of frame f. -/
def setFrame (s : PagerState) (f : Nat) (fr : Frame) : PagerState :=
  { s with frames := fun g => if g = f then fr else s.frames g }

/-- Lookup in the page-table map. -/
def ptLookup (pt : List (Int × Nat)) (pn : Int) : Option Nat :=
  (pt.find? (fun kv => kv.1 == pn)).map (fun kv => kv.2)

/-- Deletion from the page-table map. -/
def ptErase (pt : List (Int × Nat)) (pn : Int) : List (Int × Nat) :=
  pt.filter (fun kv => kv.1 != pn)

/-- Insertion (or overwrite) in the page-table map. -/
def ptInsert (pt : List (Int × Nat)) (pn : Int) (f : Nat) : List (Int × Nat) :=
  ptErase pt pn ++ [(pn, f)]

/-- The pager state produced by New (pkg/pager, New): all frames in the free
list with no page bound, and numPages read from the backing file size. -/
def pagerNew (diskPages : Int) : PagerState :=
  { numPages := diskPages
    frames := fun _ => { pagenum := NoPage, pinCount := 0, dirty := false }
    freeList := List.range MaxPagesInBuffer
    unpinnedList := []
    pinnedList := []
    pageTable := [] }

/-- Final field assignments of newPage: bind the frame to pagenum with pin
count 1 and a clean dirty flag. -/
def bindFrame (s : PagerState) (f : Nat) (pagenum : Int) : PagerState :=
  setFrame s f { pagenum := pagenum, pinCount := 1, dirty := false }

/-- Embedding of newPage (pkg/pager, newPage): take the head of the free
list, else evict the head of the unpinned list (flushing it and dropping its
page-table entry), else fail with ErrRanOutOfPages. -/
def newPage (s : PagerState) (pagenum : Int) : PagerState × Except PagerErr Nat :=
  match s.freeList with
  | f :: rest =>
    (bindFrame { s with freeList := rest } f pagenum, .ok f)
  | [] =>
    match s.unpinnedList with
    | f :: rest =>
      let oldPn := (s.frames f).pagenum
      let s1 := { s with unpinnedList := rest, pageTable := ptErase s.pageTable oldPn }
      (bindFrame s1 f pagenum, .ok f)
    | [] => (s, .error .ranOutOfPages)

/-- Embedding of GetNewPage (pkg/pager, GetNewPage). -/
def GetNewPage (s : PagerState) : PagerState × Except PagerErr Nat :=
  match newPage s s.numPages with
  | (s1, .error e) => (s1, .error e)
  | (s1, .ok f) =>
    let s2 := setFrame s1 f { s1.frames f with dirty := true }
    ({ s2 with pinnedList := s2.pinnedList ++ [f]
               pageTable := ptInsert s2.pageTable s.numPages f
               numPages := s.numPages + 1 }, .ok f)

/-- Embedding of GetPage (pkg/pager, GetPage). The ioOk flag stands for the
success of fillPageFromDisk. -/
def GetPage (s : PagerState) (pagenum : Int) (ioOk : Bool) :
    PagerState × Except PagerErr Nat :=
  if pagenum < 0 ∨ pagenum > s.numPages - 1 then (s, .error .invalidPagenum)
  else
    match ptLookup s.pageTable pagenum with
    | some f =>
      let s1 :=
        if s.unpinnedList.contains f then
          { s with unpinnedList := s.unpinnedList.erase f
                   pinnedList := s.pinnedList ++ [f]
                   pageTable := ptInsert s.pageTable pagenum f }
        else s
      (setFrame s1 f { s1.frames f with pinCount := (s1.frames f).pinCount + 1 }, .ok f)
    | none =>
      match newPage s pagenum with
      | (s1, .error e) => (s1, .error e)
      | (s1, .ok f) =>
        let s2 := setFrame s1 f { s1.frames f with dirty := false }
        if ioOk then
          ({ s2 with pinnedList := s2.pinnedList ++ [f]
                     pageTable := ptInsert s2.pageTable pagenum f }, .ok f)
        else
          ({ s2 with freeList := s2.freeList ++ [f] }, .error .ioError)

/-- Embedding of PutPage (pkg/pager, PutPage). When the pin count reaches 0
the source pops the link that the page table holds for the pagenum of the
put page (that link is in exactly one list) and pushes the put frame onto
the unpinned tail; a missing page-table entry would dereference nil, which
is modelled by the none result. -/
def PutPage (s : PagerState) (f : Nat) :
    Option (PagerState × Except PagerErr Unit) :=
  let ret := (s.frames f).pinCount - 1
  let s1 := setFrame s f { s.frames f with pinCount := ret }
  if ret = 0 then
    match ptLookup s1.pageTable (s.frames f).pagenum with
    | none => none
    | some g =>
      some ({ s1 with pinnedList := s1.pinnedList.erase g
                      unpinnedList := s1.unpinnedList.erase g ++ [f]
                      pageTable := ptInsert s1.pageTable (s.frames f).pagenum f }, .ok ())
  else if ret < 0 then some (s1, .error .pinUnderflow)
  else some (s1, .ok ())

/-- Embedding of FlushPage (pkg/pager, FlushPage): write the page to disk if
dirty and clear the dirty flag; lists and the table are untouched. -/
def FlushPage (s : PagerState) (f : Nat) : PagerState :=
  if (s.frames f).dirty then setFrame s f { s.frames f with dirty := false } else s

/-- Embedding of FlushAllPages (pkg/pager, FlushAllPages): flush every frame
of the pinned list, then of the unpinned list. -/
def FlushAllPages (s : PagerState) : PagerState :=
  let s1 := s.pinnedList.foldl FlushPage s
  s1.unpinnedList.foldl FlushPage s1

/-- The frame partition invariant: the free, unpinned and pinned lists
together hold every one of the MaxPagesInBuffer frames exactly once. -/
def FrameListsPartition (s : PagerState) : Prop :=
  (s.freeList ++ s.unpinnedList ++ s.pinnedList).Perm (List.range MaxPagesInBuffer)

/-- The page-table invariant: every page-table target is a frame that is
currently in the pinned or unpinned list. -/
def PageTableValid (s : PagerState) : Prop :=
  ∀ pn f, ptLookup s.pageTable pn = some f → f ∈ s.unpinnedList ∨ f ∈ s.pinnedList

/-- The full pager invariant of the specification. -/
def PagerInv (s : PagerState) : Prop :=
  FrameListsPartition s ∧ PageTableValid s

/-- Auxiliary well-formedness obeyed by the source pager: a page-table entry
names a frame that currently holds exactly that page number. It is needed to
make the partition and page-table invariants inductive (eviction deletes the
table entry under the pagenum stored in the evicted frame). -/
def PageTableConsistent (s : PagerState) : Prop :=
  ∀ pn f, ptLookup s.pageTable pn = some f → (s.frames f).pagenum = pn

/-- The inductive pager invariant: the invariant of the specification
together with page-table consistency. -/
def PagerInvFull (s : PagerState) : Prop :=
  FrameListsPartition s ∧ PageTableValid s ∧ PageTableConsistent s

/-! ## B+Tree leaf nodes: pkg/btree (leaf node file)

A leaf node is modelled by the entry slots of its page (a total function
from slot index to entry, mirroring the fixed slot array of the page), its
key count, its right-sibling page number and its own page number. The page
allocation performed by createLeafNode is passed in as the fresh page
number; a fresh page starts zeroed (initPage). -/

/-- binary.MaxVarintLen64. -/
def MaxVarintLen64 : Nat := 10

/-- Pagesize (pkg/pager, Pagesize = directio.BlockSize = 4096). -/
def Pagesize : Nat := 4096

/-- ENTRYSIZE from pkg/btree/constants.go. -/
def ENTRYSIZE : Nat := MaxVarintLen64 * 2

/-- LEAF_NODE_HEADER_SIZE from pkg/btree/constants.go. -/
def LEAF_NODE_HEADER_SIZE : Nat := 1 + MaxVarintLen64 + MaxVarintLen64

/-- ENTRIES_PER_LEAF_NODE from pkg/btree/constants.go (equals 202). -/
def ENTRIES_PER_LEAF_NODE : Nat := (Pagesize - LEAF_NODE_HEADER_SIZE) / ENTRYSIZE - 1

/-- A key-value entry (pkg/entry). -/
structure Entry where
  key : Int
  value : Int
deriving DecidableEq

/-- Embedding of the loop of Go sort.Search: binary search for the least
index in [i, j) satisfying f, where the fuel (initially n, an upper bound on
the number of halvings) makes the recursion structural. -/
def searchLoop (f : Nat → Bool) : Nat → Nat → Nat → Nat
  | 0, i, _ => i
  | fuel + 1, i, j =>
    if i < j then
      let h := (i + j) / 2
      if ! f h then searchLoop f fuel (h + 1) j
      else searchLoop f fuel i h
    else i

/-- Go sort.Search(n, f). -/
def sortSearch (n : Nat) (f : Nat → Bool) : Nat := searchLoop f n 0 n

/-- A leaf node of the B+Tree (struct LeafNode plus its page contents). -/
structure LeafNode where
  slots : Nat → Entry
  numKeys : Nat
  rightSiblingPN : Int
  pagenum : Int

/-- Split result propagated to the caller (struct Split in pkg/btree). -/
structure Split where
  isSplit : Bool
  key : Int
  leftPN : Int
  rightPN : Int
deriving DecidableEq

/-- Zero value of Split (Go Split{}). -/
def emptySplit : Split := ⟨false, 0, 0, 0⟩

/-- Embedding of LeafNode.search: first index whose key is at least the
given key, found by binary search over the numKeys entries. -/
def LeafNode.search (node : LeafNode) (key : Int) : Nat :=
  sortSearch node.numKeys (fun idx => decide (key ≤ (node.slots idx).key))

/-- Net effect on the slot array of the descending shift loop of
LeafNode.insert followed by the modifyEntry call: slots insertPos..numKeys-1
move one position right and the new entry lands at insertPos. -/
def shiftInsert (slots : Nat → Entry) (numKeys insertPos : Nat) (e : Entry) :
    Nat → Entry :=
  fun j =>
    if j = insertPos then e
    else if insertPos < j ∧ j ≤ numKeys then slots (j - 1)
    else slots j

/-- Errors of LeafNode.insert. -/
inductive LeafInsertErr where
  | duplicateKey
  | updateMissing
deriving DecidableEq

/-- Embedding of LeafNode.split: allocate a fresh zeroed leaf (createLeafNode
with page number newPN), thread it between the node and its former right
sibling, transfer the upper entries from midpoint = numKeys / 2 on, and
report the Split upward. Returns the updated node, the new node and the
Split. -/
def LeafNode.splitNode (node : LeafNode) (newPN : Int) :
    LeafNode × Option LeafNode × Split :=
  let newNode0 : LeafNode :=
    { slots := fun _ => ⟨0, 0⟩, numKeys := 0, rightSiblingPN := 0, pagenum := newPN }
  let prevSiblingPN := node.rightSiblingPN
  let node1 := { node with rightSiblingPN := newPN }
  let newNode1 := { newNode0 with rightSiblingPN := prevSiblingPN }
  let midpoint := node.numKeys / 2
  let cnt := node.numKeys - midpoint
  let newNode2 := { newNode1 with
    numKeys := cnt
    slots := fun j => if j < cnt then node.slots (midpoint + j) else newNode1.slots j }
  let node2 := { node1 with numKeys := midpoint }
  (node2, some newNode2,
    { isSplit := true, key := (newNode2.slots 0).key,
      leftPN := node.pagenum, rightPN := newPN })

/-- Embedding of LeafNode.insert (locking elided): reject duplicates unless
updating, update in place when updating an existing key, otherwise
shift-insert and split when the count reaches ENTRIES_PER_LEAF_NODE. -/
def LeafNode.insert (node : LeafNode) (key value : Int) (update : Bool) (newPN : Int) :
    Except LeafInsertErr (LeafNode × Option LeafNode × Split) :=
  let insertPos := node.search key
  if insertPos < node.numKeys ∧ (node.slots insertPos).key = key then
    if update then
      .ok ({ node with slots := fun j =>
        if j = insertPos then ⟨(node.slots insertPos).key, value⟩ else node.slots j },
        none, emptySplit)
    else .error .duplicateKey
  else if update then .error .updateMissing
  else
    let node1 := { node with
      slots := shiftInsert node.slots node.numKeys insertPos ⟨key, value⟩
      numKeys := node.numKeys + 1 }
    if node1.numKeys ≥ ENTRIES_PER_LEAF_NODE then .ok (node1.splitNode newPN)
    else .ok (node1, none, emptySplit)

/-- Concrete full leaf for the C5 witness: 201 entries with the even keys
0, 2, 4, ... so that inserting key 3 is not a duplicate. -/
def c5Leaf : LeafNode :=
  { slots := fun j => ⟨2 * (j : Int), 0⟩
    numKeys := 201
    rightSiblingPN := -1
    pagenum := 0 }

/-! ## Extendible hash table: pkg/hash

A bucket is modelled by its local depth and the list of its live entries
(the first numKeys slots of its page, in slot order: bucket Insert appends,
the split redistribution writes a compacted prefix and sets numKeys). The
table holds the global depth, the directory of bucket page numbers, the
page store, and the allocation counter of the pager (GetNewPage hands out
consecutive page numbers). The 64-bit hash function is a parameter H (the
absolute value of the xxhash of the key encoding); Hasher takes it modulo
2 to the depth, with powInt(2, d) modelled exactly as 2 ^ d. -/

/-- MAX_BUCKET_SIZE from pkg/hash/constants.go (equals 203). -/
def MAX_BUCKET_SIZE : Nat := (Pagesize - (MaxVarintLen64 + MaxVarintLen64)) / ENTRYSIZE

/-- A hash bucket (struct HashBucket: local depth plus live entries). -/
structure HashBucket where
  localDepth : Nat
  entries : List Entry
deriving DecidableEq

/-- State of a hash table together with its pager (struct HashTable). -/
structure HashState where
  globalDepth : Nat
  buckets : List Int
  store : Int → HashBucket
  nextPN : Int

/-- Hasher(key, depth) = H(key) mod 2^depth (pkg/hash hash functions). -/
def Hasher (H : Int → Nat) (key : Int) (depth : Nat) : Nat := H key % 2 ^ depth

/-- Embedding of newHashBucket: allocate a fresh page holding an empty
bucket of the given local depth; returns the new page number. -/
def newHashBucket (s : HashState) (depth : Nat) : HashState × Int :=
  ({ s with
      nextPN := s.nextPN + 1
      store := fun pn => if pn = s.nextPN then ⟨depth, []⟩ else s.store pn },
    s.nextPN)

/-- Embedding of NewHashTable: global depth 2 and one fresh empty bucket of
local depth 2 per directory slot, allocated in slot order. -/
def NewHashTable (startPN : Int) : HashState :=
  (List.range (2 ^ 2)).foldl
    (fun st _ =>
      let r := newHashBucket st 2
      { r.1 with buckets := r.1.buckets ++ [r.2] })
    { globalDepth := 2, buckets := [], store := fun _ => ⟨0, []⟩, nextPN := startPN }

/-- Embedding of ExtendTable: increment the global depth and duplicate the
directory. -/
def ExtendTable (s : HashState) : HashState :=
  { s with globalDepth := s.globalDepth + 1, buckets := s.buckets ++ s.buckets }

/-- Embedding of HashBucket.Insert: append the entry and report whether the
bucket must now split (count at MAX_BUCKET_SIZE). -/
def bucketInsert (b : HashBucket) (e : Entry) : HashBucket × Bool :=
  let b1 := { b with entries := b.entries ++ [e] }
  (b1, decide (b1.entries.length ≥ MAX_BUCKET_SIZE))

/-- Embedding of the directory re-pointing loop of HashTable.split: starting
at index i and stepping by step while below size, write newPN into the
directory slot. The fuel makes the recursion structural; any fuel of at
least size suffices because each iteration advances i by step which is
positive. -/
def repointLoop (newPN : Int) (step size : Nat) : Nat → List Int → Nat → List Int
  | 0, buckets, _ => buckets
  | fuel + 1, buckets, i =>
    if i < size then repointLoop newPN step size fuel (buckets.set i newPN) (i + step)
    else buckets

/-- One invocation of HashTable.split transcribed up to its recursive call:
compute the new directory index, extend the table when the bucket was at
global depth, bump the local depth, allocate the fresh bucket, redistribute
the entries by their hash at depth d+1 (scan order preserved), re-point the
directory slots, and report which bucket (if any) still overflows and must
be split recursively. -/
def splitStep (H : Int → Nat) (s : HashState) (pn : Int) (hash : Nat) :
    HashState × Option (Int × Nat) :=
  let b := s.store pn
  let d := b.localDepth
  let oldHash := hash % 2 ^ d
  let newHash := oldHash + 2 ^ d
  let s1 := if d = s.globalDepth then ExtendTable s else s
  let s2 := { s1 with store := (fun q =>
      if q = pn then { s1.store pn with localDepth := d + 1 } else s1.store q) }
  let r := newHashBucket s2 (d + 1)
  let s3 := r.1
  let newPN := r.2
  let newEntries := b.entries.filter (fun e => Hasher H e.key (d + 1) == newHash)
  let oldEntries := b.entries.filter (fun e => ! (Hasher H e.key (d + 1) == newHash))
  let s4 := { s3 with store := (fun q =>
      if q = pn then ({ localDepth := d + 1, entries := oldEntries } : HashBucket)
      else if q = newPN then ({ localDepth := d + 1, entries := newEntries } : HashBucket)
      else s3.store q) }
  let s5 := { s4 with buckets :=
      (repointLoop newPN (2 ^ (d + 1)) (2 ^ s4.globalDepth)
        (s4.buckets.length + 1) s4.buckets newHash) }
  let req :=
    if oldEntries.length ≥ MAX_BUCKET_SIZE then some (pn, oldHash)
    else if newEntries.length ≥ MAX_BUCKET_SIZE then some (newPN, newHash)
    else none
  (s5, req)

/-- Embedding of HashTable.split: iterate splitStep while a bucket still
overflows. The fuel makes the recursion structural (the source recursion is
bounded in practice by the entropy of the hash). -/
def split (H : Int → Nat) : Nat → HashState → Int → Nat → HashState
  | 0, s, _, _ => s
  | fuel + 1, s, pn, hash =>
    match splitStep H s pn hash with
    | (s1, none) => s1
    | (s1, some ph) => split H fuel s1 ph.1 ph.2

/-- Concrete table for the C6 witness: a single directory slot pointing at
page 0 whose bucket has local depth 0 and is full. -/
def c6State : HashState :=
  { globalDepth := 0
    buckets := [0]
    store := fun pn =>
      if pn = 0 then ⟨0, List.replicate MAX_BUCKET_SIZE ⟨5, 1⟩⟩ else ⟨0, []⟩
    nextPN := 1 }

/-! ## Transaction manager: pkg/concurrency

Clients and transactions are identified by the same TxId used by the
waits-for graph. The per-transaction held-lock map becomes an association
list from resources to lock types, and the transaction table an association
list from client ids to held lists. Blocking on the resource mutex always
succeeds in this single-run semantics; the returned Boolean records whether
the call reached that blocking acquisition. -/

/-- Reader or writer lock (R_LOCK, W_LOCK). -/
inductive LockType where
  | rLock
  | wLock
deriving DecidableEq

/-- A lockable resource: a table name and a key. -/
structure Resource where
  tableName : String
  key : Int
deriving DecidableEq

/-- Errors of TransactionManager.Lock. -/
inductive LockErr where
  | noTransaction
  | cannotUpgrade
  | deadlock
deriving DecidableEq

/-- State of the transaction manager: the transaction table (client id to
held locks) and the waits-for edges. -/
structure TmState where
  transactions : List (TxId × List (Resource × LockType))
  edges : List Edge

/-- GetTransaction: look up the held-lock list of a client. -/
def getTransaction (tm : TmState) (client : TxId) :
    Option (List (Resource × LockType)) :=
  (tm.transactions.find? (fun kv => kv.1 == client)).map (fun kv => kv.2)

/-- Lookup of a resource in a held-lock list. -/
def heldLookup (held : List (Resource × LockType)) (r : Resource) :
    Option LockType :=
  (held.find? (fun kv => kv.1 == r)).map (fun kv => kv.2)

/-- Embedding of conflictingTransactions: the transactions holding a lock on
the same resource where either side is a write lock. -/
def conflictingTransactions (tm : TmState) (r : Resource) (lt : LockType) :
    List TxId :=
  (tm.transactions.filter (fun t =>
    t.2.any (fun kv => kv.1 == r &&
      (kv.2 == LockType.wLock || lt == LockType.wLock)))).map (fun t => t.1)

/-- Record a held lock in the transaction table
(transaction.GetResources()[newResource] = lType). -/
def setHeld (txs : List (TxId × List (Resource × LockType))) (client : TxId)
    (held : List (Resource × LockType)) : List (TxId × List (Resource × LockType)) :=
  txs.map (fun kv => if kv.1 = client then (kv.1, held) else kv)

/-- Run the deferred RemoveEdge calls: remove one copy of each transient
edge, most recently added first. -/
def removeEdges (edges : List Edge) (client : TxId) (conflicts : List TxId) :
    List Edge :=
  conflicts.reverse.foldl
    (fun es c =>
      match RemoveEdge es client c with
      | .ok es2 => es2
      | .error _ => es) edges

/-- Embedding of TransactionManager.Lock. Returns the post state, the error
if any, and whether the call went on to block on (and acquire) the resource
mutex. The transient waits-for edges are added before the cycle check and
removed by the deferred calls on every return path that registered them. -/
def Lock (tm : TmState) (client : TxId) (tableName : String) (key : Int)
    (lt : LockType) : TmState × Option LockErr × Bool :=
  match getTransaction tm client with
  | none => (tm, some .noTransaction, false)
  | some held =>
    let r : Resource := ⟨tableName, key⟩
    let conflicts := conflictingTransactions tm r lt
    match heldLookup held r with
    | some curr =>
      if curr = .rLock ∧ lt = .wLock then (tm, some .cannotUpgrade, false)
      else (tm, none, false)
    | none =>
      let edges1 := conflicts.foldl (fun es c => AddEdge es client c) tm.edges
      if DetectCycle edges1 then
        ({ tm with edges := removeEdges edges1 client conflicts }, some .deadlock, false)
      else
        ({ tm with
            transactions := setHeld tm.transactions client (held ++ [(r, lt)])
            edges := removeEdges edges1 client conflicts }, none, true)

/-- Concrete transaction table for the C8 witness: client 1 holds a read
lock on (t, 0); client 2 has no transaction. -/
def c8Tm : TmState :=
  { transactions := [(1, [(⟨"t", 0⟩, .rLock)])], edges := [] }

/-- Concrete transaction table for the C10 witness: client 1 holds a write
lock on (t, 0). -/
def c10Tm : TmState :=
  { transactions := [(1, [(⟨"t", 0⟩, .wLock)])], edges := [] }

/-! ## Database handlers and the recovery redo pass
(pkg/database/db_repl.go and pkg/recovery/recovery_manager.go)

A table is modelled by its logical entry sequence together with its index
kind, because the two index implementations disagree on error behavior:

* a B+Tree (pkg/btree) rejects duplicate inserts, errors when updating a
  missing key, and silently succeeds when deleting a missing key
  (LeafNode.delete returns nothing and BTreeIndex.Delete returns nil);
* a hash table (pkg/hash) appends inserts without error, and errors on
  update and on delete of a missing key (HashBucket.Update, HashBucket.Delete).

Find returns the first entry in scan order with the given key. The command
string formatting and re-parsing between redo and the handlers round-trips
the key, value and table name and is elided. -/

/-- A table with its index kind and logical entries. -/
inductive Table where
  | btreeT (entries : List (Int × Int))
  | hashT (entries : List (Int × Int))
deriving DecidableEq

/-- First value stored under a key (Find of either index). -/
def tableFind (t : Table) (k : Int) : Option Int :=
  match t with
  | .btreeT es => (es.find? (fun kv => kv.1 == k)).map (fun kv => kv.2)
  | .hashT es => (es.find? (fun kv => kv.1 == k)).map (fun kv => kv.2)

/-- Keyed insertion into the sorted B+Tree entry sequence. -/
def insertSorted : List (Int × Int) → Int → Int → List (Int × Int)
  | [], k, v => [(k, v)]
  | (k2, v2) :: rest, k, v =>
    if k < k2 then (k, v) :: (k2, v2) :: rest
    else (k2, v2) :: insertSorted rest k v

/-- Overwrite the value of the first entry with the given key. -/
def updateFirst : List (Int × Int) → Int → Int → List (Int × Int)
  | [], _, _ => []
  | (k2, v2) :: rest, k, v =>
    if k2 = k then (k2, v) :: rest else (k2, v2) :: updateFirst rest k v

/-- Remove the first entry with the given key. -/
def removeFirst : List (Int × Int) → Int → List (Int × Int)
  | [], _ => []
  | (k2, v2) :: rest, k =>
    if k2 = k then rest else (k2, v2) :: removeFirst rest k

/-- Insert of either index: the B+Tree rejects duplicates
(LeafNode.insert), the hash table appends (HashBucket.Insert). -/
def tableInsert (t : Table) (k v : Int) : Except String Table :=
  match t with
  | .btreeT es =>
    if (es.find? (fun kv => kv.1 == k)).isSome then .error "cannot insert duplicate key"
    else .ok (.btreeT (insertSorted es k v))
  | .hashT es => .ok (.hashT (es ++ [(k, v)]))

/-- Update of either index: both error when the key is absent. -/
def tableUpdate (t : Table) (k v : Int) : Except String Table :=
  match t with
  | .btreeT es =>
    if (es.find? (fun kv => kv.1 == k)).isSome then .ok (.btreeT (updateFirst es k v))
    else .error "cannot update non-existent entry"
  | .hashT es =>
    if (es.find? (fun kv => kv.1 == k)).isSome then .ok (.hashT (updateFirst es k v))
    else .error "key not found, update aborted"

/-- Delete: a silent no-op on a missing key for the B+Tree
(LeafNode.delete), an error for the hash table (HashBucket.Delete). -/
def tableDelete (t : Table) (k : Int) : Except String Table :=
  match t with
  | .btreeT es => .ok (.btreeT (removeFirst es k))
  | .hashT es =>
    if (es.find? (fun kv => kv.1 == k)).isSome then .ok (.hashT (removeFirst es k))
    else .error "key not found, delete aborted"

/-- A database: tables by name (struct Database in pkg/database). -/
def Database := List (String × Table)
deriving instance DecidableEq for Database

/-- GetTable restricted to already open tables. -/
def getTable (db : Database) (name : String) : Option Table :=
  (db.find? (fun kv => kv.1 == name)).map (fun kv => kv.2)

/-- Store a table back under its name. -/
def dbSet (db : Database) (name : String) (t : Table) : Database :=
  db.map (fun kv => if kv.1 = name then (name, t) else kv)

/-- Embedding of database.HandleInsert after command parsing: reject when
Find succeeds, then delegate to the index insert. -/
def HandleInsert (db : Database) (key value : Int) (tableName : String) :
    Except String Database :=
  match getTable db tableName with
  | none => .error "table not found"
  | some t =>
    match tableFind t key with
    | some _ => .error "key already in table"
    | none =>
      match tableInsert t key value with
      | .error e => .error e
      | .ok t2 => .ok (dbSet db tableName t2)

/-- Embedding of database.HandleUpdate after command parsing. -/
def HandleUpdate (db : Database) (tableName : String) (key value : Int) :
    Except String Database :=
  match getTable db tableName with
  | none => .error "table not found"
  | some t =>
    match tableUpdate t key value with
    | .error e => .error e
    | .ok t2 => .ok (dbSet db tableName t2)

/-- Embedding of database.HandleDelete after command parsing. -/
def HandleDelete (db : Database) (key : Int) (tableName : String) :
    Except String Database :=
  match getTable db tableName with
  | none => .error "table not found"
  | some t =>
    match tableDelete t key with
    | .error e => .error e
    | .ok t2 => .ok (dbSet db tableName t2)

/-- The kind of an edit record. -/
inductive RedoAction where
  | insertA
  | updateA
  | deleteA
deriving DecidableEq

/-- The payload of an edit log used by the redo pass. -/
structure EditRec where
  tablename : String
  act : RedoAction
  key : Int
  oldval : Int
  newval : Int

/-- Embedding of the edit-log arm of RecoveryManager.redo: replay the edit
with its new value, reinterpreting a failed insert as an update and a
failed update as an insert; a delete is replayed directly. -/
def redo (db : Database) (rec : EditRec) : Except String Database :=
  match rec.act with
  | .insertA =>
    match HandleInsert db rec.key rec.newval rec.tablename with
    | .ok db2 => .ok db2
    | .error _ => HandleUpdate db rec.tablename rec.key rec.newval
  | .updateA =>
    match HandleUpdate db rec.tablename rec.key rec.newval with
    | .ok db2 => .ok db2
    | .error _ => HandleInsert db rec.key rec.newval rec.tablename
  | .deleteA => HandleDelete db rec.key rec.tablename

/-- Concrete database for the C1 counterexample and witness: one B+Tree
table b and one hash table h, each holding the single entry (1, 10). -/
def c1Db : Database := [("b", .btreeT [(1, 10)]), ("h", .hashT [(1, 10)])]

/-! ## Recovery log serialization and parsing (part of the recovery
package)

Log lines are modelled as lists of characters. Each of the five regular
expressions of the source is embedded as a deterministic matcher over a
starting position; because in every pattern each repetition (a character
class plus) is followed by a literal character outside the class, greedy
matching with backtracking coincides with committed maximal munch, so the
deterministic matcher computes exactly the regex match. MatchString's
unanchored search is the scan over all suffixes, taking the leftmost
match. A uuid is kept in its canonical 36-character lowercase-hex string
form, which uuid.String produces and uuid.MustParse accepts and inverts. -/

/-- The word-character class of the regexes: [0-9A-Za-z_]. -/
def isWordChar (c : Char) : Bool :=
  ('0' ≤ c && c ≤ '9') || ('a' ≤ c && c ≤ 'z') || ('A' ≤ c && c ≤ 'Z') || c == '_'

/-- The digit class of the regexes: [0-9]. -/
def isDigitChar (c : Char) : Bool := '0' ≤ c && c ≤ '9'

/-- The uuid pattern's character class: [0-9a-f]. -/
def isHexLower (c : Char) : Bool := ('0' ≤ c && c ≤ '9') || ('a' ≤ c && c ≤ 'f')

/-- The whitespace class of the regexes. -/
def isSpaceChar (c : Char) : Bool :=
  c == ' ' || c == '\t' || c == '\n' || c == '\x0c' || c == '\r'

/-- The decimal digit characters. -/
def digitChar : Nat → Char
  | 0 => '0' | 1 => '1' | 2 => '2' | 3 => '3' | 4 => '4'
  | 5 => '5' | 6 => '6' | 7 => '7' | 8 => '8' | _ => '9'

/-- The numeric value of a digit character. -/
def charVal (c : Char) : Nat := c.toNat - 48

/-- Little-endian base-10 digits, structurally fuelled. -/
def digitsRev (fuel : Nat) (n : Nat) : List Nat :=
  match fuel with
  | 0 => []
  | f + 1 => if n = 0 then [] else n % 10 :: digitsRev f (n / 10)

/-- Decimal rendering of a natural number, as fmt's %v prints it. -/
def numChars (n : Nat) : List Char :=
  if n = 0 then ['0'] else (digitsRev (n + 1) n).reverse.map digitChar

/-- Decimal rendering of an int64 value, as fmt's %v prints it. -/
def intChars (n : Int) : List Char :=
  if n < 0 then '-' :: numChars (-n).toNat else numChars n.toNat

/-- Numeric value of a digit string. -/
def parseNat (ds : List Char) : Nat := ds.foldl (fun a c => 10 * a + charVal c) 0

/-- strconv.Atoi with its error ignored, as logFromString calls it: on an
int64 range overflow ParseInt returns the clamped maximum together with
the discarded error. -/
def goAtoi (ds : List Char) : Nat := min (parseNat ds) (2 ^ 63 - 1)

/-- Consume a literal character sequence, returning the rest. -/
def litP : List Char → List Char → Option (List Char)
  | [], s => some s
  | _ :: _, [] => none
  | p :: ps, c :: cs => if c = p then litP ps cs else none

/-- Split off the maximal prefix run of characters in a class. -/
def run1 (p : Char → Bool) : List Char → List Char × List Char
  | [] => ([], [])
  | c :: cs => if p c then ((run1 p cs).1.cons c, (run1 p cs).2) else ([], c :: cs)

/-- Greedy plus of a character class: the maximal nonempty prefix run. -/
def takeWhile1 (p : Char → Bool) (s : List Char) : Option (List Char × List Char) :=
  if (run1 p s).1.isEmpty then none else some (run1 p s)

/-- Consume exactly n characters of a class. -/
def hexChars : Nat → List Char → Option (List Char × List Char)
  | 0, s => some ([], s)
  | _ + 1, [] => none
  | n + 1, c :: cs =>
    if isHexLower c then
      match hexChars n cs with
      | none => none
      | some (m, r) => some (c :: m, r)
    else none

/-- Match the uuid pattern [0-9a-f]{8}-…{4}-…{4}-…{4}-…{12} at the start,
returning the 36 matched characters and the rest. -/
def uuidAt (s : List Char) : Option (List Char × List Char) :=
  (hexChars 8 s).bind (fun p1 =>
  (litP ['-'] p1.2).bind (fun r1 =>
  (hexChars 4 r1).bind (fun p2 =>
  (litP ['-'] p2.2).bind (fun r2 =>
  (hexChars 4 r2).bind (fun p3 =>
  (litP ['-'] p3.2).bind (fun r3 =>
  (hexChars 4 r3).bind (fun p4 =>
  (litP ['-'] p4.2).bind (fun r4 =>
  (hexChars 12 r4).map (fun p5 =>
  (p1.1 ++ '-' :: (p2.1 ++ '-' :: (p3.1 ++ '-' :: (p4.1 ++ '-' :: p5.1))), p5.2))))))))))

/-- A string of canonical uuid shape. -/
def uuidOk (s : List Char) : Bool := decide (uuidAt s = some (s, []))

/-- A nonempty string of word characters, as \w+ captures produce. -/
def nameOk (s : List Char) : Bool := !s.isEmpty && s.all isWordChar

/-- Literal chunks of the log line grammar. -/
def lAngle : List Char := '<' :: ' ' :: []

/-- "< create " of the table log pattern. -/
def lCreate : List Char := '<' :: ' ' :: 'c' :: 'r' :: 'e' :: 'a' :: 't' :: 'e' :: ' ' :: []

/-- " table " of the table log pattern. -/
def lTable : List Char := ' ' :: 't' :: 'a' :: 'b' :: 'l' :: 'e' :: ' ' :: []

/-- " >" closing a log pattern. -/
def lEnd : List Char := ' ' :: '>' :: []

/-- " >\n" closing a serialized log line. -/
def lEndNl : List Char := ' ' :: '>' :: '\n' :: []

/-- ", " separating log fields. -/
def lComma : List Char := ',' :: ' ' :: []

/-- " start >" of the start log pattern. -/
def lStart : List Char := ' ' :: 's' :: 't' :: 'a' :: 'r' :: 't' :: ' ' :: '>' :: []

/-- " start >\n" of a serialized start line. -/
def lStartNl : List Char := ' ' :: 's' :: 't' :: 'a' :: 'r' :: 't' :: ' ' :: '>' :: '\n' :: []

/-- " commit >" of the commit log pattern. -/
def lCommit : List Char := ' ' :: 'c' :: 'o' :: 'm' :: 'm' :: 'i' :: 't' :: ' ' :: '>' :: []

/-- " commit >\n" of a serialized commit line. -/
def lCommitNl : List Char := ' ' :: 'c' :: 'o' :: 'm' :: 'm' :: 'i' :: 't' :: ' ' :: '>' :: '\n' :: []

/-- "checkpoint >" of the checkpoint log pattern. -/
def lCheckpoint : List Char :=
  'c' :: 'h' :: 'e' :: 'c' :: 'k' :: 'p' :: 'o' :: 'i' :: 'n' :: 't' :: ' ' :: '>' :: []

/-- "checkpoint >\n" of a serialized checkpoint line. -/
def lCheckpointNl : List Char :=
  'c' :: 'h' :: 'e' :: 'c' :: 'k' :: 'p' :: 'o' :: 'i' :: 'n' :: 't' :: ' ' :: '>' :: '\n' :: []

/-- "UPDATE". -/
def lUPDATE : List Char := 'U' :: 'P' :: 'D' :: 'A' :: 'T' :: 'E' :: []

/-- "INSERT". -/
def lINSERT : List Char := 'I' :: 'N' :: 'S' :: 'E' :: 'R' :: 'T' :: []

/-- "DELETE". -/
def lDELETE : List Char := 'D' :: 'E' :: 'L' :: 'E' :: 'T' :: 'E' :: []

/-- The serialized form of an edit action. -/
def actionChars : RedoAction → List Char
  | .updateA => lUPDATE
  | .insertA => lINSERT
  | .deleteA => lDELETE

/-- The action alternation UPDATE|INSERT|DELETE of the edit pattern, in
the regex's order. -/
def actionAt (s : List Char) : Option (RedoAction × List Char) :=
  match litP lUPDATE s with
  | some r => some (.updateA, r)
  | none =>
    match litP lINSERT s with
    | some r => some (.insertA, r)
    | none =>
      match litP lDELETE s with
      | some r => some (.deleteA, r)
      | none => none

/-- Matcher of tableExp at a position: captures (tblType, tblName). -/
def tableMatchAt (s : List Char) : Option (List Char × List Char) :=
  (litP lCreate s).bind (fun s1 =>
  (takeWhile1 isWordChar s1).bind (fun p1 =>
  (litP lTable p1.2).bind (fun s3 =>
  (takeWhile1 isWordChar s3).bind (fun p2 =>
  (litP lEnd p2.2).map (fun _ => (p1.1, p2.1))))))

/-- Matcher of editExp at a position: captures
(uuid, table, action, key, oldval, newval digit strings). -/
def editMatchAt (s : List Char) :
    Option (List Char × List Char × RedoAction × List Char × List Char × List Char) :=
  (litP lAngle s).bind (fun s1 =>
  (uuidAt s1).bind (fun pu =>
  (litP lComma pu.2).bind (fun s3 =>
  (takeWhile1 isWordChar s3).bind (fun pt =>
  (litP lComma pt.2).bind (fun s5 =>
  (actionAt s5).bind (fun pa =>
  (litP lComma pa.2).bind (fun s7 =>
  (takeWhile1 isDigitChar s7).bind (fun pk =>
  (litP lComma pk.2).bind (fun s9 =>
  (takeWhile1 isDigitChar s9).bind (fun po =>
  (litP lComma po.2).bind (fun s11 =>
  (takeWhile1 isDigitChar s11).bind (fun pn =>
  (litP lEnd pn.2).map (fun _ =>
  (pu.1, pt.1, pa.1, pk.1, po.1, pn.1))))))))))))))

/-- Matcher of startExp at a position: captures the uuid. -/
def startMatchAt (s : List Char) : Option (List Char) :=
  (litP lAngle s).bind (fun s1 =>
  (uuidAt s1).bind (fun pu =>
  (litP lStart pu.2).map (fun _ => pu.1)))

/-- Matcher of commitExp at a position: captures the uuid. -/
def commitMatchAt (s : List Char) : Option (List Char) :=
  (litP lAngle s).bind (fun s1 =>
  (uuidAt s1).bind (fun pu =>
  (litP lCommit pu.2).map (fun _ => pu.1)))

/-- The star (uuid,?\s)* of the checkpoint pattern, fuelled. -/
def cpStar : Nat → List Char → Option (List (List Char) × List Char)
  | 0, _ => none
  | fuel + 1, s =>
    match uuidAt s with
    | none => some ([], s)
    | some (uid, rest) =>
      match rest with
      | [] => none
      | c :: rest2 =>
        if c = ',' then
          match rest2 with
          | [] => none
          | c2 :: rest3 =>
            if isSpaceChar c2 then
              match cpStar fuel rest3 with
              | none => none
              | some (ids, r) => some (uid :: ids, r)
            else none
        else if isSpaceChar c then
          match cpStar fuel rest2 with
          | none => none
          | some (ids, r) => some (uid :: ids, r)
        else none

/-- Matcher of checkpointExp at a position. -/
def checkpointMatchAt (s : List Char) : Option Unit :=
  (litP lAngle s).bind (fun s1 =>
  (cpStar (s1.length + 1) s1).bind (fun pr =>
  (litP lCheckpoint pr.2).map (fun _ => ())))

/-- Unanchored leftmost matching: try the matcher at every suffix. -/
def scan {α : Type} (m : List Char → Option α) : List Char → Option α
  | [] => m []
  | c :: cs =>
    match m (c :: cs) with
    | some r => some r
    | none => scan m cs

/-- uuidExp.FindString: the leftmost uuid match in the string. -/
def findUuid : Nat → List Char → Option (List Char)
  | 0, _ => none
  | fuel + 1, s =>
    match uuidAt s with
    | some (uid, _) => some uid
    | none =>
      match s with
      | [] => none
      | _ :: cs => findUuid fuel cs

/-- uuidExp.FindAllString: all leftmost non-overlapping uuid matches. -/
def findAllUuids : Nat → List Char → List (List Char)
  | 0, _ => []
  | fuel + 1, s =>
    match uuidAt s with
    | some (uid, rest) => uid :: findAllUuids fuel rest
    | none =>
      match s with
      | [] => []
      | _ :: cs => findAllUuids fuel cs

/-- The five log record structs of the recovery package. Uuids are kept as
their canonical 36-character strings. -/
inductive LogRecord where
  | table (tblType tblName : List Char)
  | edit (id : List Char) (tablename : List Char) (act : RedoAction)
      (key oldval newval : Int)
  | start (id : List Char)
  | commit (id : List Char)
  | checkpoint (ids : List (List Char))
deriving DecidableEq

/-- The body of a checkpoint line after "< ": the uuids joined by ", ",
then " checkpoint >\n" (just "checkpoint >\n" when there are none). -/
def cpBody : List (List Char) → List Char
  | [] => lCheckpointNl
  | [u] => u ++ ' ' :: lCheckpointNl
  | u :: u2 :: rest => u ++ (lComma ++ cpBody (u2 :: rest))

/-- The toString serializers of the five log structs. -/
def logToString : LogRecord → List Char
  | .table ty nm => lCreate ++ (ty ++ (lTable ++ (nm ++ lEndNl)))
  | .edit id tn a k ov nv =>
    lAngle ++ (id ++ (lComma ++ (tn ++ (lComma ++ (actionChars a ++ (lComma ++
      (intChars k ++ (lComma ++ (intChars ov ++ (lComma ++ (intChars nv ++ lEndNl)))))))))))
  | .start id => lAngle ++ (id ++ lStartNl)
  | .commit id => lAngle ++ (id ++ lCommitNl)
  | .checkpoint ids => lAngle ++ cpBody ids

/-- Embedding of logFromString: the five patterns are tried in the
source's order; the edit branch converts the captured digit strings with
Atoi, the start and commit branches re-find the uuid in the whole line,
and the checkpoint branch collects all uuids of the line. -/
def logFromString (s : List Char) : Except String LogRecord :=
  match scan tableMatchAt s with
  | some (ty, nm) => .ok (.table ty nm)
  | none =>
  match scan editMatchAt s with
  | some (uid, tn, a, kd, od, nd) =>
    .ok (.edit uid tn a (Int.ofNat (goAtoi kd)) (Int.ofNat (goAtoi od)) (Int.ofNat (goAtoi nd)))
  | none =>
  match scan startMatchAt s with
  | some _ =>
    (match findUuid (s.length + 1) s with
     | some uid => .ok (.start uid)
     | none => .error "could not parse log")
  | none =>
  match scan commitMatchAt s with
  | some _ =>
    (match findUuid (s.length + 1) s with
     | some uid => .ok (.commit uid)
     | none => .error "could not parse log")
  | none =>
  match scan checkpointMatchAt s with
  | some _ => .ok (.checkpoint (findAllUuids (s.length + 1) s))
  | none => .error "could not parse log"

/-- Well-formedness of a record as the repository's writers produce it:
names are nonempty word-character strings, ids are canonical uuid strings,
and edit numbers are non-negative int64 values. -/
def recWF : LogRecord → Bool
  | .table ty nm => nameOk ty && nameOk nm
  | .edit uid tn _ k ov nv =>
    uuidOk uid && nameOk tn &&
      (decide (0 ≤ k) && decide (k < 2 ^ 63)) &&
      (decide (0 ≤ ov) && decide (ov < 2 ^ 63)) &&
      (decide (0 ≤ nv) && decide (nv < 2 ^ 63))
  | .start uid => uuidOk uid
  | .commit uid => uuidOk uid
  | .checkpoint ids => ids.all uuidOk

/-- The canonical uuid shape: five lowercase-hex groups of lengths
8, 4, 4, 4, 12 joined by dashes. -/
def uuidShape (s : List Char) : Prop :=
  ∃ g1 g2 g3 g4 g5 : List Char,
    s = g1 ++ '-' :: (g2 ++ '-' :: (g3 ++ '-' :: (g4 ++ '-' :: g5))) ∧
    g1.length = 8 ∧ g2.length = 4 ∧ g3.length = 4 ∧ g4.length = 4 ∧ g5.length = 12 ∧
    (∀ c ∈ g1, isHexLower c = true) ∧ (∀ c ∈ g2, isHexLower c = true) ∧
    (∀ c ∈ g3, isHexLower c = true) ∧ (∀ c ∈ g4, isHexLower c = true) ∧
    (∀ c ∈ g5, isHexLower c = true)

/-- A concrete canonical uuid string for tests. -/
def zeroUuid : List Char :=
  '0' :: '0' :: '0' :: '0' :: '0' :: '0' :: '0' :: '0' :: '-' ::
  '0' :: '0' :: '0' :: '0' :: '-' :: '0' :: '0' :: '0' :: '0' :: '-' ::
  '0' :: '0' :: '0' :: '0' :: '-' ::
  '0' :: '0' :: '0' :: '0' :: '0' :: '0' :: '0' :: '0' :: '0' :: '0' :: '0' :: '0' :: []

/-- isChain edges v p holds when p records a walk that starts at v and
follows edges of the graph. -/
def isChain (edges : List Edge) : TxId → List TxId → Prop
  | _, [] => True
  | v, w :: ws => (⟨v, w⟩ : Edge) ∈ edges ∧ isChain edges w ws

/-- Final vertex of the walk that starts at v and visits p. -/
def lastOf : TxId → List TxId → TxId
  | v, [] => v
  | _, w :: ws => lastOf w ws

/-- A directed cycle in the edge multiset: a walk from some vertex v through
p, closed by an edge from its final vertex back to v. -/
def hasCycle (edges : List Edge) : Prop :=
  ∃ v p, isChain edges v p ∧ (⟨lastOf v p, v⟩ : Edge) ∈ edges

end DinoDB

namespace DinoDB

theorem lastOf_append (v : TxId) (l : List TxId) (x : TxId) :
    lastOf v (l ++ [x]) = x := by
  induction l generalizing v with
  | nil => rfl
  | cons w ws ih => simpa [lastOf] using ih w

theorem isChain_append (edges : List Edge) (v : TxId) (l : List TxId)
    (x : TxId) (hc : isChain edges v l)
    (he : (⟨lastOf v l, x⟩ : Edge) ∈ edges) :
    isChain edges v (l ++ [x]) := by
  induction l generalizing v with
  | nil => exact ⟨he, trivial⟩
  | cons w ws ih =>
    exact ⟨hc.1, ih w hc.2 he⟩

theorem isChain_suffix (edges : List Edge) (pre : List TxId) (v x : TxId)
    (post : List TxId) (hc : isChain edges v (pre ++ x :: post)) :
    isChain edges x post := by
  induction pre generalizing v with
  | nil => exact hc.2
  | cons w ws ih => exact ih w hc.2

theorem lastOf_suffix (pre : List TxId) (v x : TxId) (post : List TxId) :
    lastOf v (pre ++ x :: post) = lastOf x post := by
  induction pre generalizing v with
  | nil => rfl
  | cons w ws ih => simpa [lastOf] using ih w

theorem dfs_sound (edges : List Edge) (fuel : Nat) :
    ∀ v seen start, isChain edges start seen → v = lastOf start seen →
      dfs edges fuel v seen = true → hasCycle edges := by
  induction fuel with
  | zero => intro v seen start _ _ h; simp [dfs] at h
  | succ fuel ih =>
    intro v seen start hchain hlast h
    rw [dfs] at h
    cases hfind : edges.find? (fun e => e.efrom == v) with
    | none => rw [hfind] at h; simp at h
    | some e =>
      rw [hfind] at h
      have h2 : (if seen.contains e.eto then true
          else dfs edges fuel e.eto (seen ++ [e.eto])) = true := h
      have hmem : e ∈ edges := List.mem_of_find?_eq_some hfind
      have hpred := List.find?_some hfind
      have hfrom : e.efrom = v := by simpa using hpred
      by_cases hseen : seen.contains e.eto
      · -- the marked-before case: the walk recorded in seen closes a cycle
        have hmem2 : e.eto ∈ seen := by simpa using hseen
        obtain ⟨pre, post, hsplit⟩ := List.append_of_mem hmem2
        refine ⟨e.eto, post, ?_, ?_⟩
        · exact isChain_suffix edges pre start e.eto post (hsplit ▸ hchain)
        · have hv : lastOf e.eto post = v := by
            rw [hlast, hsplit, lastOf_suffix]
          rw [hv, ← hfrom]
          simpa using hmem
      · -- otherwise the recursive call extends the walk by e
        rw [if_neg hseen] at h2
        have hedge : (⟨v, e.eto⟩ : Edge) ∈ edges := by
          rw [← hfrom]; simpa using hmem
        refine ih e.eto (seen ++ [e.eto]) start ?_ ?_ h2
        · exact isChain_append edges start seen e.eto hchain (by rw [← hlast]; exact hedge)
        · rw [lastOf_append]

theorem ptLookup_erase (pt : List (Int × Nat)) (pn pn2 : Int) :
    ptLookup (ptErase pt pn) pn2 = if pn2 = pn then none else ptLookup pt pn2 := by
  induction pt with
  | nil => simp [ptLookup, ptErase]
  | cons kv rest ih =>
    by_cases h1 : kv.1 = pn
    · by_cases h2 : pn2 = pn
      · simp_all [ptLookup, ptErase]
      · have h3 : ¬ kv.1 = pn2 := by rw [h1]; exact fun hc => h2 hc.symm
        simp_all [ptLookup, ptErase]
    · by_cases h3 : kv.1 = pn2
      · have h2 : ¬ pn2 = pn := fun hc => h1 (h3.symm ▸ hc)
        simp_all [ptLookup, ptErase]
      · simp_all [ptLookup, ptErase]

theorem ptLookup_insert (pt : List (Int × Nat)) (pn : Int) (f : Nat) (pn2 : Int) :
    ptLookup (ptInsert pt pn f) pn2 = if pn2 = pn then some f else ptLookup pt pn2 := by
  have h := ptLookup_erase pt pn pn2
  by_cases h2 : pn2 = pn
  · subst h2
    rw [if_pos rfl] at h
    have hfind : (ptErase pt pn2).find? (fun kv => kv.1 == pn2) = none := by
      simpa [ptLookup] using h
    rw [if_pos rfl]
    simp [ptInsert, ptLookup, List.find?_append, hfind]
  · rw [if_neg h2] at h
    rw [if_neg h2, ← h]
    have hne : ¬ ((pn, f).1 == pn2) = true := by
      simp; exact fun hc => h2 hc.symm
    cases hfind : (ptErase pt pn).find? (fun kv => kv.1 == pn2) with
    | none => simp [ptInsert, ptLookup, List.find?_append, hfind, hne]
    | some kv => simp [ptInsert, ptLookup, List.find?_append, hfind]

/-- C3: the full result contract of GetNewPage. -/
theorem c3_getNewPage_contract (s : PagerState) :
    (s.freeList = [] ∧ s.unpinnedList = [] →
      GetNewPage s = (s, .error .ranOutOfPages)) ∧
    (s.freeList ≠ [] ∨ s.unpinnedList ≠ [] →
      ∃ f, (GetNewPage s).2 = .ok f ∧
        ((GetNewPage s).1.frames f).pagenum = s.numPages ∧
        (GetNewPage s).1.numPages = s.numPages + 1 ∧
        ((GetNewPage s).1.frames f).pinCount = 1 ∧
        ((GetNewPage s).1.frames f).dirty = true ∧
        f ∈ (GetNewPage s).1.pinnedList ∧
        ptLookup (GetNewPage s).1.pageTable s.numPages = some f) := by
  obtain ⟨np, fr, fl, ul, pl, pt⟩ := s
  constructor
  · rintro ⟨h1, h2⟩
    simp only at h1 h2
    subst h1; subst h2
    rfl
  · intro h
    cases fl with
    | cons f rest =>
      refine ⟨f, ?_, ?_, ?_, ?_, ?_, ?_, ?_⟩ <;>
        simp [GetNewPage, newPage, bindFrame, setFrame, ptLookup_insert]
    | nil =>
      cases ul with
      | nil => simp at h
      | cons f rest =>
        refine ⟨f, ?_, ?_, ?_, ?_, ?_, ?_, ?_⟩ <;>
          simp [GetNewPage, newPage, bindFrame, setFrame, ptLookup_insert]

/-- Closed witness for C3: on a fresh pager the success branch applies, and
on a pager whose free and unpinned lists are empty the failure branch
applies. -/
theorem c3_getNewPage_witness :
    (GetNewPage { pagerNew 0 with freeList := [] } =
      ({ pagerNew 0 with freeList := [] }, .error .ranOutOfPages)) ∧
    (∃ f, (GetNewPage (pagerNew 0)).2 = .ok f ∧
      ((GetNewPage (pagerNew 0)).1.frames f).pagenum = (pagerNew 0).numPages ∧
      (GetNewPage (pagerNew 0)).1.numPages = (pagerNew 0).numPages + 1 ∧
      ((GetNewPage (pagerNew 0)).1.frames f).pinCount = 1 ∧
      ((GetNewPage (pagerNew 0)).1.frames f).dirty = true ∧
      f ∈ (GetNewPage (pagerNew 0)).1.pinnedList ∧
      ptLookup (GetNewPage (pagerNew 0)).1.pageTable (pagerNew 0).numPages = some f) :=
  ⟨(c3_getNewPage_contract { pagerNew 0 with freeList := [] }).1 ⟨rfl, rfl⟩,
   (c3_getNewPage_contract (pagerNew 0)).2 (Or.inl (by decide))⟩

theorem partition_nodup (s : PagerState) (h : FrameListsPartition s) :
    (s.freeList ++ s.unpinnedList ++ s.pinnedList).Nodup :=
  (List.Perm.nodup_iff h).2 (List.nodup_range MaxPagesInBuffer)

theorem partition_disjoint_facts (s : PagerState) (h : FrameListsPartition s) :
    s.freeList.Disjoint s.unpinnedList ∧ s.freeList.Disjoint s.pinnedList ∧
      s.unpinnedList.Disjoint s.pinnedList := by
  have hnd := partition_nodup s h
  rw [List.nodup_append] at hnd
  obtain ⟨h12, _, hd⟩ := hnd
  rw [List.nodup_append] at h12
  refine ⟨h12.2.2, ?_, ?_⟩
  · intro a ha hb
    exact hd (List.mem_append_left _ ha) hb
  · intro a ha hb
    exact hd (List.mem_append_right _ ha) hb

theorem pagerInv_getNewPage (s : PagerState) (h : PagerInvFull s) :
    PagerInvFull (GetNewPage s).1 := by
  obtain ⟨hpart, hvalid, hcons⟩ := h
  obtain ⟨hd_fu, hd_fp, hd_up⟩ := partition_disjoint_facts s hpart
  obtain ⟨np, fr, fl, ul, pl, pt⟩ := s
  cases fl with
  | cons f rest =>
    refine ⟨?_, ?_, ?_⟩
    · unfold FrameListsPartition at hpart ⊢
      simp only [GetNewPage, newPage, bindFrame, setFrame]
      refine List.Perm.trans ?_ hpart
      have e1 : rest ++ ul ++ (pl ++ [f]) = (rest ++ ul ++ pl) ++ [f] := by
        simp [List.append_assoc]
      have e2 : (f :: rest) ++ ul ++ pl = f :: (rest ++ ul ++ pl) := by simp
      rw [e1, e2]
      exact List.perm_append_singleton f _
    · intro pn f2 hlook
      simp only [GetNewPage, newPage, bindFrame, setFrame] at hlook ⊢
      rw [ptLookup_insert] at hlook
      by_cases hpn : pn = np
      · rw [if_pos hpn] at hlook
        right
        simp [← Option.some_inj.1 hlook]
      · rw [if_neg hpn] at hlook
        rcases hvalid pn f2 hlook with h2 | h2
        · left; exact h2
        · right; exact List.mem_append_left _ h2
    · intro pn f2 hlook
      simp only [GetNewPage, newPage, bindFrame, setFrame] at hlook ⊢
      rw [ptLookup_insert] at hlook
      by_cases hpn : pn = np
      · rw [if_pos hpn] at hlook
        rw [← Option.some_inj.1 hlook, hpn]
        simp
      · rw [if_neg hpn] at hlook
        have hne : f2 ≠ f := by
          intro hc
          rcases hvalid pn f2 hlook with h2 | h2
          · exact hd_fu (by simp) (hc ▸ h2)
          · exact hd_fp (by simp) (hc ▸ h2)
        have := hcons pn f2 hlook
        simpa [hne] using this
  | nil =>
    cases ul with
    | nil =>
      exact ⟨hpart, hvalid, hcons⟩
    | cons f rest =>
      refine ⟨?_, ?_, ?_⟩
      · unfold FrameListsPartition at hpart ⊢
        simp only [GetNewPage, newPage, bindFrame, setFrame]
        refine List.Perm.trans ?_ hpart
        have e1 : ([] : List Nat) ++ rest ++ (pl ++ [f]) = (rest ++ pl) ++ [f] := by
          simp [List.append_assoc]
        have e2 : ([] : List Nat) ++ (f :: rest) ++ pl = f :: (rest ++ pl) := by simp
        rw [e1, e2]
        exact List.perm_append_singleton f _
      · intro pn f2 hlook
        simp only [GetNewPage, newPage, bindFrame, setFrame] at hlook ⊢
        rw [ptLookup_insert] at hlook
        by_cases hpn : pn = np
        · rw [if_pos hpn] at hlook
          right
          simp [← Option.some_inj.1 hlook]
        · rw [if_neg hpn] at hlook
          rw [ptLookup_erase] at hlook
          by_cases hold : pn = (fr f).pagenum
          · rw [if_pos hold] at hlook; cases hlook
          · rw [if_neg hold] at hlook
            rcases hvalid pn f2 hlook with h2 | h2
            · rw [List.mem_cons] at h2
              rcases h2 with h2 | h2
              · exact absurd (hcons pn f2 hlook)
                  (by rw [h2]; exact fun hc => hold hc.symm)
              · left; exact h2
            · right; exact List.mem_append_left _ h2
      · intro pn f2 hlook
        simp only [GetNewPage, newPage, bindFrame, setFrame] at hlook ⊢
        rw [ptLookup_insert] at hlook
        by_cases hpn : pn = np
        · rw [if_pos hpn] at hlook
          rw [← Option.some_inj.1 hlook, hpn]
          simp
        · rw [if_neg hpn] at hlook
          rw [ptLookup_erase] at hlook
          by_cases hold : pn = (fr f).pagenum
          · rw [if_pos hold] at hlook; cases hlook
          · rw [if_neg hold] at hlook
            have hne : f2 ≠ f := by
              intro hc
              exact hold (by rw [← hcons pn f2 hlook, hc])
            have := hcons pn f2 hlook
            simpa [hne] using this

theorem flushPage_fields (s : PagerState) (g : Nat) :
    (FlushPage s g).freeList = s.freeList ∧
    (FlushPage s g).unpinnedList = s.unpinnedList ∧
    (FlushPage s g).pinnedList = s.pinnedList ∧
    (FlushPage s g).pageTable = s.pageTable ∧
    ∀ f, ((FlushPage s g).frames f).pagenum = (s.frames f).pagenum := by
  unfold FlushPage setFrame
  by_cases hd : (s.frames g).dirty <;> simp [hd] <;> intro f <;> by_cases hf : f = g <;> simp [hf]

theorem pagerInv_getPage (s : PagerState) (pn : Int) (ioOk : Bool) (h : PagerInvFull s) :
    PagerInvFull (GetPage s pn ioOk).1 := by
  obtain ⟨hpart, hvalid, hcons⟩ := h
  obtain ⟨hd_fu, hd_fp, hd_up⟩ := partition_disjoint_facts s hpart
  by_cases hrange : pn < 0 ∨ pn > s.numPages - 1
  · simp only [GetPage, if_pos hrange]
    exact ⟨hpart, hvalid, hcons⟩
  · cases hlook0 : ptLookup s.pageTable pn with
    | some f =>
      have hconsf := hcons pn f hlook0
      by_cases hin : s.unpinnedList.contains f
      · have hmem : f ∈ s.unpinnedList := by simpa using hin
        have hu : List.Perm s.unpinnedList (f :: s.unpinnedList.erase f) := List.perm_cons_erase hmem
        simp only [GetPage, if_neg hrange, hlook0, hin, if_true, setFrame]
        refine ⟨?_, ?_, ?_⟩
        · unfold FrameListsPartition at hpart ⊢
          simp only
          refine List.Perm.trans ?_ hpart
          have p1 : List.Perm (s.freeList ++ s.unpinnedList.erase f ++ (s.pinnedList ++ [f]))
              (f :: (s.freeList ++ s.unpinnedList.erase f ++ s.pinnedList)) := by
            have e1 : s.freeList ++ s.unpinnedList.erase f ++ (s.pinnedList ++ [f]) =
                (s.freeList ++ s.unpinnedList.erase f ++ s.pinnedList) ++ [f] := by
              simp [List.append_assoc]
            rw [e1]
            exact List.perm_append_singleton f _
          have p2 : List.Perm (s.freeList ++ s.unpinnedList ++ s.pinnedList)
              (f :: (s.freeList ++ s.unpinnedList.erase f ++ s.pinnedList)) := by
            have pa : List.Perm (s.freeList ++ s.unpinnedList ++ s.pinnedList)
                (s.freeList ++ (f :: s.unpinnedList.erase f) ++ s.pinnedList) :=
              (hu.append_left s.freeList).append_right s.pinnedList
            refine pa.trans ?_
            have e2 : s.freeList ++ (f :: s.unpinnedList.erase f) ++ s.pinnedList =
                s.freeList ++ f :: (s.unpinnedList.erase f ++ s.pinnedList) := by
              simp [List.append_assoc]
            rw [e2]
            have pm : List.Perm (s.freeList ++ f :: (s.unpinnedList.erase f ++ s.pinnedList))
                (f :: (s.freeList ++ (s.unpinnedList.erase f ++ s.pinnedList))) :=
              List.perm_middle
            refine pm.trans ?_
            simp [List.append_assoc]
          exact p1.trans p2.symm
        · intro pn2 f2 hl2
          simp only [ptLookup_insert] at hl2
          by_cases hpn2 : pn2 = pn
          · rw [if_pos hpn2] at hl2
            right
            rw [← Option.some_inj.1 hl2]
            exact List.mem_append_right _ (by simp)
          · rw [if_neg hpn2] at hl2
            by_cases hf2 : f2 = f
            · right; exact List.mem_append_right _ (by simp [hf2])
            · rcases hvalid pn2 f2 hl2 with h2 | h2
              · left
                exact (List.mem_erase_of_ne hf2).2 h2
              · right; exact List.mem_append_left _ h2
        · intro pn2 f2 hl2
          simp only [ptLookup_insert] at hl2
          by_cases hpn2 : pn2 = pn
          · rw [if_pos hpn2] at hl2
            rw [← Option.some_inj.1 hl2, hpn2]
            simpa using hconsf
          · rw [if_neg hpn2] at hl2
            have h2 := hcons pn2 f2 hl2
            by_cases hf2 : f2 = f
            · exact absurd (hf2 ▸ h2) (by rw [hconsf]; exact fun hc => hpn2 hc.symm)
            · simpa [hf2] using h2
      · simp only [GetPage, if_neg hrange, hlook0, hin, if_false, setFrame]
        refine ⟨hpart, hvalid, ?_⟩
        intro pn2 f2 hl2
        have h2 := hcons pn2 f2 hl2
        by_cases hf2 : f2 = f
        · subst hf2; simpa using h2
        · simpa [hf2] using h2
    | none =>
      cases hfl : s.freeList with
      | cons f rest =>
        have hnotin : f ∉ s.unpinnedList := fun hc => hd_fu (by rw [hfl]; simp) hc
        have hnotp : f ∉ s.pinnedList := fun hc => hd_fp (by rw [hfl]; simp) hc
        have hftable : ∀ pn2, ptLookup s.pageTable pn2 ≠ some f := by
          intro pn2 hc
          rcases hvalid pn2 f hc with h2 | h2
          · exact hnotin h2
          · exact hnotp h2
        cases ioOk with
        | true =>
          simp only [GetPage, if_neg hrange, hlook0, newPage, hfl, bindFrame, setFrame,
            if_true]
          refine ⟨?_, ?_, ?_⟩
          · unfold FrameListsPartition at hpart ⊢
            rw [hfl] at hpart
            refine List.Perm.trans ?_ hpart
            have e1 : rest ++ s.unpinnedList ++ (s.pinnedList ++ [f]) =
                (rest ++ s.unpinnedList ++ s.pinnedList) ++ [f] := by
              simp [List.append_assoc]
            have e2 : (f :: rest) ++ s.unpinnedList ++ s.pinnedList =
                f :: (rest ++ s.unpinnedList ++ s.pinnedList) := by simp
            rw [e1, e2]
            exact List.perm_append_singleton f _
          · intro pn2 f2 hl2
            simp only [ptLookup_insert] at hl2
            by_cases hpn2 : pn2 = pn
            · rw [if_pos hpn2] at hl2
              right
              rw [← Option.some_inj.1 hl2]
              exact List.mem_append_right _ (by simp)
            · rw [if_neg hpn2] at hl2
              rcases hvalid pn2 f2 hl2 with h2 | h2
              · left; exact h2
              · right; exact List.mem_append_left _ h2
          · intro pn2 f2 hl2
            simp only [ptLookup_insert] at hl2
            by_cases hpn2 : pn2 = pn
            · rw [if_pos hpn2] at hl2
              rw [← Option.some_inj.1 hl2, hpn2]
              simp
            · rw [if_neg hpn2] at hl2
              have hne : f2 ≠ f := fun hc => hftable pn2 (hc ▸ hl2)
              have h2 := hcons pn2 f2 hl2
              simpa [hne] using h2
        | false =>
          simp only [GetPage, if_neg hrange, hlook0, newPage, hfl, bindFrame, setFrame,
            if_false]
          refine ⟨?_, ?_, ?_⟩
          · unfold FrameListsPartition at hpart ⊢
            rw [hfl] at hpart
            refine List.Perm.trans ?_ hpart
            have e2 : (f :: rest) ++ s.unpinnedList ++ s.pinnedList =
                f :: (rest ++ s.unpinnedList ++ s.pinnedList) := by simp
            rw [e2]
            have e1 : List.Perm (rest ++ [f] ++ s.unpinnedList ++ s.pinnedList)
                (f :: (rest ++ s.unpinnedList ++ s.pinnedList)) := by
              have pa : List.Perm (rest ++ [f]) (f :: rest) := List.perm_append_singleton f rest
              have pb := (pa.append_right s.unpinnedList).append_right s.pinnedList
              simpa using pb
            exact e1
          · intro pn2 f2 hl2
            rcases hvalid pn2 f2 hl2 with h2 | h2
            · left; exact h2
            · right; exact h2
          · intro pn2 f2 hl2
            have hne : f2 ≠ f := fun hc => hftable pn2 (hc ▸ hl2)
            have h2 := hcons pn2 f2 hl2
            simpa [hne] using h2
      | nil =>
        cases hul : s.unpinnedList with
        | nil =>
          simp only [GetPage, if_neg hrange, hlook0, newPage, hfl, hul]
          exact ⟨hpart, hvalid, hcons⟩
        | cons f rest =>
          have hftable : ∀ pn2, pn2 ≠ (s.frames f).pagenum →
              ptLookup s.pageTable pn2 ≠ some f := by
            intro pn2 hne hc
            exact hne (hcons pn2 f hc).symm
          cases ioOk with
          | true =>
            simp only [GetPage, if_neg hrange, hlook0, newPage, hfl, hul, bindFrame,
              setFrame, if_true]
            refine ⟨?_, ?_, ?_⟩
            · unfold FrameListsPartition at hpart ⊢
              rw [hfl, hul] at hpart
              refine List.Perm.trans ?_ hpart
              have e1 : ([] : List Nat) ++ rest ++ (s.pinnedList ++ [f]) =
                  (rest ++ s.pinnedList) ++ [f] := by simp [List.append_assoc]
              have e2 : ([] : List Nat) ++ (f :: rest) ++ s.pinnedList =
                  f :: (rest ++ s.pinnedList) := by simp
              rw [e1, e2]
              exact List.perm_append_singleton f _
            · intro pn2 f2 hl2
              simp only [ptLookup_insert] at hl2
              by_cases hpn2 : pn2 = pn
              · rw [if_pos hpn2] at hl2
                right
                rw [← Option.some_inj.1 hl2]
                exact List.mem_append_right _ (by simp)
              · rw [if_neg hpn2] at hl2
                rw [ptLookup_erase] at hl2
                by_cases hold : pn2 = (s.frames f).pagenum
                · rw [if_pos hold] at hl2; cases hl2
                · rw [if_neg hold] at hl2
                  rcases hvalid pn2 f2 hl2 with h2 | h2
                  · rw [hul, List.mem_cons] at h2
                    rcases h2 with h2 | h2
                    · have hx := hcons pn2 f2 hl2
                      rw [h2] at hx
                      exact absurd hx.symm hold
                    · left; exact h2
                  · right; exact List.mem_append_left _ h2
            · intro pn2 f2 hl2
              simp only [ptLookup_insert] at hl2
              by_cases hpn2 : pn2 = pn
              · rw [if_pos hpn2] at hl2
                rw [← Option.some_inj.1 hl2, hpn2]
                simp
              · rw [if_neg hpn2] at hl2
                rw [ptLookup_erase] at hl2
                by_cases hold : pn2 = (s.frames f).pagenum
                · rw [if_pos hold] at hl2; cases hl2
                · rw [if_neg hold] at hl2
                  have hne : f2 ≠ f := fun hc => hftable pn2 hold (hc ▸ hl2)
                  have h2 := hcons pn2 f2 hl2
                  simpa [hne] using h2
          | false =>
            simp only [GetPage, if_neg hrange, hlook0, newPage, hfl, hul, bindFrame,
              setFrame, if_false]
            refine ⟨?_, ?_, ?_⟩
            · unfold FrameListsPartition at hpart ⊢
              rw [hfl, hul] at hpart
              refine List.Perm.trans ?_ hpart
              simp
            · intro pn2 f2 hl2
              replace hl2 : ptLookup (ptErase s.pageTable (s.frames f).pagenum) pn2 =
                  some f2 := hl2
              rw [ptLookup_erase] at hl2
              by_cases hold : pn2 = (s.frames f).pagenum
              · rw [if_pos hold] at hl2; cases hl2
              · rw [if_neg hold] at hl2
                rcases hvalid pn2 f2 hl2 with h2 | h2
                · rw [hul, List.mem_cons] at h2
                  rcases h2 with h2 | h2
                  · have hx := hcons pn2 f2 hl2
                    rw [h2] at hx
                    exact absurd hx.symm hold
                  · left; exact h2
                · right; exact h2
            · intro pn2 f2 hl2
              replace hl2 : ptLookup (ptErase s.pageTable (s.frames f).pagenum) pn2 =
                  some f2 := hl2
              rw [ptLookup_erase] at hl2
              by_cases hold : pn2 = (s.frames f).pagenum
              · rw [if_pos hold] at hl2; cases hl2
              · rw [if_neg hold] at hl2
                have hne : f2 ≠ f := fun hc => hftable pn2 hold (hc ▸ hl2)
                have h2 := hcons pn2 f2 hl2
                simpa [hne] using h2

theorem pagerInv_putPage (s : PagerState) (f : Nat) (h : PagerInvFull s)
    (hput : (s.frames f).pinCount = 1 →
      ptLookup s.pageTable (s.frames f).pagenum = some f) :
    ∀ r, PutPage s f = some r → PagerInvFull r.1 := by
  obtain ⟨hpart, hvalid, hcons⟩ := h
  obtain ⟨hd_fu, hd_fp, hd_up⟩ := partition_disjoint_facts s hpart
  intro r hr
  simp only [PutPage, setFrame] at hr
  by_cases hret : (s.frames f).pinCount - 1 = 0
  · rw [if_pos hret] at hr
    have hpin : (s.frames f).pinCount = 1 := by omega
    have hlookf := hput hpin
    rw [hlookf] at hr
    injection hr with hr
    subst hr
    have hmemup : f ∈ s.unpinnedList ∨ f ∈ s.pinnedList :=
      hvalid (s.frames f).pagenum f hlookf
    refine ⟨?_, ?_, ?_⟩
    · unfold FrameListsPartition at hpart ⊢
      refine List.Perm.trans ?_ hpart
      rcases hmemup with hmem | hmem
      · have hnp : f ∉ s.pinnedList := fun hc => hd_up hmem hc
        rw [List.erase_of_not_mem hnp]
        have mid : List.Perm (s.unpinnedList.erase f ++ [f]) s.unpinnedList :=
          (List.perm_append_singleton f _).trans (List.perm_cons_erase hmem).symm
        exact (mid.append_left s.freeList).append_right s.pinnedList
      · have hnu : f ∉ s.unpinnedList := fun hc => hd_up hc hmem
        rw [List.erase_of_not_mem hnu]
        have e1 : s.freeList ++ (s.unpinnedList ++ [f]) ++ s.pinnedList.erase f =
            (s.freeList ++ s.unpinnedList) ++ (f :: s.pinnedList.erase f) := by
          simp [List.append_assoc]
        rw [e1]
        have mid : List.Perm (f :: s.pinnedList.erase f) s.pinnedList :=
          (List.perm_cons_erase hmem).symm
        exact mid.append_left (s.freeList ++ s.unpinnedList)
    · intro pn2 f2 hl2
      replace hl2 : ptLookup (ptInsert s.pageTable (s.frames f).pagenum f) pn2 =
          some f2 := hl2
      rw [ptLookup_insert] at hl2
      by_cases hpn2 : pn2 = (s.frames f).pagenum
      · rw [if_pos hpn2] at hl2
        left
        rw [← Option.some_inj.1 hl2]
        exact List.mem_append_right _ (by simp)
      · rw [if_neg hpn2] at hl2
        by_cases hf2 : f2 = f
        · left; exact List.mem_append_right _ (by simp [hf2])
        · rcases hvalid pn2 f2 hl2 with h2 | h2
          · left; exact List.mem_append_left _ ((List.mem_erase_of_ne hf2).2 h2)
          · right; exact (List.mem_erase_of_ne hf2).2 h2
    · intro pn2 f2 hl2
      replace hl2 : ptLookup (ptInsert s.pageTable (s.frames f).pagenum f) pn2 =
          some f2 := hl2
      rw [ptLookup_insert] at hl2
      by_cases hpn2 : pn2 = (s.frames f).pagenum
      · rw [if_pos hpn2] at hl2
        rw [← Option.some_inj.1 hl2, hpn2]
        simp
      · rw [if_neg hpn2] at hl2
        have h2 := hcons pn2 f2 hl2
        by_cases hf2 : f2 = f
        · rw [hf2] at h2
          exact absurd h2 (fun hc => hpn2 hc.symm)
        · simpa [hf2] using h2
  · rw [if_neg hret] at hr
    have hframes : ∀ pn2 f2, ptLookup s.pageTable pn2 = some f2 →
        ((fun g => if g = f then { s.frames f with
            pinCount := (s.frames f).pinCount - 1 } else s.frames g) f2).pagenum = pn2 := by
      intro pn2 f2 hl2
      have h2 := hcons pn2 f2 hl2
      by_cases hf2 : f2 = f
      · subst hf2; simpa using h2
      · simpa [hf2] using h2
    by_cases hneg : (s.frames f).pinCount - 1 < 0
    · rw [if_pos hneg] at hr
      injection hr with hr
      subst hr
      exact ⟨hpart, hvalid, hframes⟩
    · rw [if_neg hneg] at hr
      injection hr with hr
      subst hr
      exact ⟨hpart, hvalid, hframes⟩

theorem pagerInv_flushPage (s : PagerState) (g : Nat) (h : PagerInvFull s) :
    PagerInvFull (FlushPage s g) := by
  obtain ⟨hpart, hvalid, hcons⟩ := h
  obtain ⟨h1, h2, h3, h4, h5⟩ := flushPage_fields s g
  refine ⟨?_, ?_, ?_⟩
  · unfold FrameListsPartition at hpart ⊢
    rw [h1, h2, h3]; exact hpart
  · intro pn f hlook
    rw [ptLookup, h4] at hlook
    rw [h2, h3]
    exact hvalid pn f hlook
  · intro pn f hlook
    rw [ptLookup, h4] at hlook
    rw [h5]
    exact hcons pn f hlook

theorem pagerInv_foldl_flushPage (l : List Nat) :
    ∀ s : PagerState, PagerInvFull s → PagerInvFull (l.foldl FlushPage s) := by
  induction l with
  | nil => intro s h; exact h
  | cons g rest ih => intro s h; exact ih (FlushPage s g) (pagerInv_flushPage s g h)

theorem pagerInv_flushAllPages (s : PagerState) (h : PagerInvFull s) :
    PagerInvFull (FlushAllPages s) := by
  unfold FlushAllPages
  exact pagerInv_foldl_flushPage _ _ (pagerInv_foldl_flushPage _ _ h)

/-- C4: every pager operation (GetNewPage, GetPage, PutPage, FlushPage,
FlushAllPages) preserves the invariant that each of the MaxPagesInBuffer
frames is in exactly one of the free, unpinned and pinned lists, and that
every page-table entry points to a frame currently in the pinned or
unpinned list. The hypothesis is the inductive strengthening PagerInvFull
of that invariant (adding the page-table/pagenum consistency the source
maintains); PutPage additionally assumes that a page whose pin count drops
to 0 is the page-table target of its own page number, which holds for every
page handed out by the pager and which the source relies on by
dereferencing that page-table link unconditionally. -/
theorem c4_pager_operations_preserve_invariant (s : PagerState) (h : PagerInvFull s) :
    PagerInvFull (GetNewPage s).1 ∧
    (∀ pn ioOk, PagerInvFull (GetPage s pn ioOk).1) ∧
    (∀ f, ((s.frames f).pinCount = 1 →
        ptLookup s.pageTable (s.frames f).pagenum = some f) →
      ∀ r, PutPage s f = some r → PagerInvFull r.1) ∧
    (∀ f, PagerInvFull (FlushPage s f)) ∧
    PagerInvFull (FlushAllPages s) :=
  ⟨pagerInv_getNewPage s h,
   fun pn ioOk => pagerInv_getPage s pn ioOk h,
   fun f hput r hr => pagerInv_putPage s f h hput r hr,
   fun f => pagerInv_flushPage s f h,
   pagerInv_flushAllPages s h⟩

/-- Closed witness for C4: the freshly constructed pager satisfies the full
invariant, and the theorem then delivers preservation for an allocation on
that concrete state. -/
theorem c4_pager_witness :
    PagerInvFull (pagerNew 0) ∧ PagerInvFull (GetNewPage (pagerNew 0)).1 := by
  have h0 : PagerInvFull (pagerNew 0) := by
    refine ⟨?_, ?_, ?_⟩
    · unfold FrameListsPartition pagerNew
      decide
    · intro pn f hl
      exact absurd hl (by simp [ptLookup, pagerNew])
    · intro pn f hl
      exact absurd hl (by simp [ptLookup, pagerNew])
  exact ⟨h0, (c4_pager_operations_preserve_invariant (pagerNew 0) h0).1⟩

/-- C5: a non-duplicate leaf insert that brings the key count up to
ENTRIES_PER_LEAF_NODE splits the leaf at midpoint = numKeys / 2 of the
post-insert entry sequence: entries from the midpoint up move to the fresh
leaf, the fresh leaf is threaded between the old leaf and its former right
sibling, and the returned Split carries the first key of the new leaf, the
old page number on the left and the new page number on the right. -/
theorem c5_leaf_insert_split (node : LeafNode) (key value newPN : Int)
    (hnodup : ¬(node.search key < node.numKeys ∧
        (node.slots (node.search key)).key = key))
    (hover : node.numKeys + 1 ≥ ENTRIES_PER_LEAF_NODE) :
    ∃ old newNode split,
      node.insert key value false newPN = .ok (old, some newNode, split) ∧
      old.numKeys = (node.numKeys + 1) / 2 ∧
      newNode.numKeys = (node.numKeys + 1) - (node.numKeys + 1) / 2 ∧
      (∀ j, j < old.numKeys → old.slots j =
        shiftInsert node.slots node.numKeys (node.search key) ⟨key, value⟩ j) ∧
      (∀ j, j < newNode.numKeys → newNode.slots j =
        shiftInsert node.slots node.numKeys (node.search key) ⟨key, value⟩
          ((node.numKeys + 1) / 2 + j)) ∧
      old.rightSiblingPN = newPN ∧
      newNode.rightSiblingPN = node.rightSiblingPN ∧
      newNode.pagenum = newPN ∧
      old.pagenum = node.pagenum ∧
      split = { isSplit := true
                key := (shiftInsert node.slots node.numKeys (node.search key)
                  ⟨key, value⟩ ((node.numKeys + 1) / 2)).key
                leftPN := node.pagenum, rightPN := newPN } := by
  have hcnt : 0 < (node.numKeys + 1) - (node.numKeys + 1) / 2 := by omega
  unfold LeafNode.insert LeafNode.splitNode
  rw [if_neg hnodup]
  have hge : ({ node with
      slots := shiftInsert node.slots node.numKeys (node.search key) ⟨key, value⟩
      numKeys := node.numKeys + 1 } : LeafNode).numKeys ≥ ENTRIES_PER_LEAF_NODE := hover
  simp only [Bool.false_eq_true, if_false, hge, ge_iff_le, if_true]
  refine ⟨_, _, _, rfl, rfl, rfl, fun j hj => rfl, fun j hj => ?_, rfl, rfl, rfl, rfl, ?_⟩
  · simp only at hj
    simp [hj]
  · simp [hcnt]

/-- Closed witness for C5: a full leaf with 201 even keys receives key 3. -/
theorem c5_leaf_insert_split_witness :
    (¬(c5Leaf.search 3 < c5Leaf.numKeys ∧
        (c5Leaf.slots (c5Leaf.search 3)).key = 3)) ∧
    c5Leaf.numKeys + 1 ≥ ENTRIES_PER_LEAF_NODE ∧
    (∃ old newNode split,
      c5Leaf.insert 3 7 false 5 = .ok (old, some newNode, split) ∧
      old.numKeys = (c5Leaf.numKeys + 1) / 2 ∧
      newNode.numKeys = (c5Leaf.numKeys + 1) - (c5Leaf.numKeys + 1) / 2 ∧
      (∀ j, j < old.numKeys → old.slots j =
        shiftInsert c5Leaf.slots c5Leaf.numKeys (c5Leaf.search 3) ⟨3, 7⟩ j) ∧
      (∀ j, j < newNode.numKeys → newNode.slots j =
        shiftInsert c5Leaf.slots c5Leaf.numKeys (c5Leaf.search 3) ⟨3, 7⟩
          ((c5Leaf.numKeys + 1) / 2 + j)) ∧
      old.rightSiblingPN = 5 ∧
      newNode.rightSiblingPN = c5Leaf.rightSiblingPN ∧
      newNode.pagenum = 5 ∧
      old.pagenum = c5Leaf.pagenum ∧
      split = { isSplit := true
                key := (shiftInsert c5Leaf.slots c5Leaf.numKeys (c5Leaf.search 3)
                  ⟨3, 7⟩ ((c5Leaf.numKeys + 1) / 2)).key
                leftPN := c5Leaf.pagenum, rightPN := 5 }) :=
  ⟨by decide, by decide, c5_leaf_insert_split c5Leaf 3 7 5 (by decide) (by decide)⟩

/-- C9: NewHashTable builds a table of global depth 2 with a directory of
exactly 4 slots, each slot holding a distinct freshly allocated page whose
bucket is empty with local depth 2; in particular the constructor never
produces a table of global depth 0. -/
theorem c9_newHashTable_constructor (startPN : Int) :
    (NewHashTable startPN).globalDepth = 2 ∧
    (NewHashTable startPN).buckets.length = 4 ∧
    (NewHashTable startPN).buckets = [startPN, startPN + 1, startPN + 2, startPN + 3] ∧
    (NewHashTable startPN).buckets.Nodup ∧
    (∀ pn ∈ (NewHashTable startPN).buckets,
      (NewHashTable startPN).store pn = ⟨2, []⟩) ∧
    (NewHashTable startPN).globalDepth ≠ 0 := by
  have hb : (NewHashTable startPN).buckets =
      [startPN, startPN + 1, startPN + 2, startPN + 3] := by
    show [startPN, startPN + 1, startPN + 1 + 1, startPN + 1 + 1 + 1] = _
    simp only [List.cons.injEq, true_and, and_true]
    omega
  refine ⟨rfl, by rw [hb]; rfl, hb, ?_, ?_, by show (2 : Nat) ≠ 0; decide⟩
  · rw [hb]
    simp
  · intro pn hpn
    rw [hb] at hpn
    show (if pn = startPN + 1 + 1 + 1 then (⟨2, []⟩ : HashBucket)
      else if pn = startPN + 1 + 1 then ⟨2, []⟩
      else if pn = startPN + 1 then ⟨2, []⟩
      else if pn = startPN then ⟨2, []⟩
      else ⟨0, []⟩) = ⟨2, []⟩
    simp only [List.mem_cons, List.not_mem_nil, or_false] at hpn
    rcases hpn with h | h | h | h <;> subst h <;> split_ifs <;> first | rfl | omega

theorem mod_eq_of_sub_mod_eq_zero {i j m : Nat} (hij : i ≤ j)
    (h : (j - i) % m = 0) : j % m = i % m := by
  obtain ⟨q, hq⟩ := Nat.dvd_of_mod_eq_zero h
  have hj : j = i + m * q := by omega
  subst hj
  simp [Nat.add_mul_mod_self_left]

theorem repointLoop_length (newPN : Int) (step size : Nat) :
    ∀ fuel buckets i,
      (repointLoop newPN step size fuel buckets i).length = buckets.length := by
  intro fuel
  induction fuel with
  | zero => intro buckets i; rfl
  | succ fuel ih =>
    intro buckets i
    rw [repointLoop]
    by_cases hlt : i < size
    · rw [if_pos hlt, ih]; simp
    · rw [if_neg hlt]

theorem repointLoop_get (newPN : Int) (step size : Nat) (hstep : 0 < step) :
    ∀ fuel buckets i j, size ≤ i + fuel * step → j < buckets.length →
      (repointLoop newPN step size fuel buckets i).getD j 0 =
        if i ≤ j ∧ j < size ∧ (j - i) % step = 0 then newPN
        else buckets.getD j 0 := by
  intro fuel
  induction fuel with
  | zero =>
    intro buckets i j hfuel hj
    have hc : ¬(i ≤ j ∧ j < size ∧ (j - i) % step = 0) := by omega
    rw [repointLoop, if_neg hc]
  | succ fuel ih =>
    intro buckets i j hfuel hj
    rw [repointLoop]
    by_cases hlt : i < size
    · rw [if_pos hlt]
      have hfs : (fuel + 1) * step = fuel * step + step := by ring
      have hrec := ih (buckets.set i newPN) (i + step) j (by omega) (by simpa using hj)
      rw [hrec]
      by_cases hij : i = j
      · subst hij
        have hc1 : ¬(i + step ≤ i ∧ i < size ∧ (i - (i + step)) % step = 0) := by omega
        have hc2 : i ≤ i ∧ i < size ∧ (i - i) % step = 0 := ⟨Nat.le_refl i, hlt, by simp⟩
        rw [if_neg hc1, if_pos hc2]
        simp [List.getD_eq_getElem?_getD, List.getElem?_set_self hj]
      · have hset : (buckets.set i newPN).getD j 0 = buckets.getD j 0 := by
          simp [List.getD_eq_getElem?_getD, List.getElem?_set_ne hij]
        rw [hset]
        by_cases hcond : i + step ≤ j ∧ j < size ∧ (j - (i + step)) % step = 0
        · rw [if_pos hcond]
          obtain ⟨h1, h2, h3⟩ := hcond
          obtain ⟨q, hq⟩ := Nat.dvd_of_mod_eq_zero h3
          have hji : j - i = step * q + step := by omega
          have hmod : (j - i) % step = 0 := by
            rw [hji]
            simp [Nat.mul_mod_right, Nat.add_mod, Nat.mod_self]
          rw [if_pos ⟨by omega, h2, hmod⟩]
        · rw [if_neg hcond]
          by_cases houter : i ≤ j ∧ j < size ∧ (j - i) % step = 0
          · exfalso
            obtain ⟨h1, h2, h3⟩ := houter
            obtain ⟨q, hq⟩ := Nat.dvd_of_mod_eq_zero h3
            cases q with
            | zero => omega
            | succ q2 =>
              have hmul : step * (q2 + 1) = step * q2 + step := by ring
              have hstepj : i + step ≤ j := by omega
              have hsub : j - (i + step) = step * q2 := by omega
              exact hcond ⟨hstepj, h2, by
                rw [hsub, Nat.mul_comm]
                exact Nat.mul_mod_left _ _⟩
          · rw [if_neg houter]
    · rw [if_neg hlt]
      have hc : ¬(i ≤ j ∧ j < size ∧ (j - i) % step = 0) := by omega
      rw [if_neg hc]

/-- C6: splitting an overflowing bucket of local depth d reached through
directory index i bumps the local depth to d+1 (doubling the directory first
exactly when d equals the global depth), allocates a fresh bucket of local
depth d+1, moves exactly the entries whose hash modulo 2^(d+1) equals
newIndex = i mod 2^d + 2^d while the others stay in place, re-points exactly
the directory slots congruent to newIndex modulo 2^(d+1) to the fresh
bucket, and recursively splits whichever bucket still overflows. -/
theorem c6_hash_split_behavior (H : Int → Nat) (s : HashState) (pn : Int)
    (i d newIndex : Nat) (newPN : Int)
    (hd : d = (s.store pn).localDepth)
    (hni : newIndex = i % 2 ^ d + 2 ^ d)
    (hnp : newPN = s.nextPN)
    (hlen : s.buckets.length = 2 ^ s.globalDepth)
    (hfresh : pn ≠ s.nextPN)
    (hover : (s.store pn).entries.length ≥ MAX_BUCKET_SIZE) :
    (splitStep H s pn i).1.globalDepth =
        (if d = s.globalDepth then s.globalDepth + 1 else s.globalDepth) ∧
    (splitStep H s pn i).1.buckets.length = 2 ^ (splitStep H s pn i).1.globalDepth ∧
    ((splitStep H s pn i).1.store pn).localDepth = d + 1 ∧
    ((splitStep H s pn i).1.store newPN).localDepth = d + 1 ∧
    (splitStep H s pn i).1.nextPN = s.nextPN + 1 ∧
    ((splitStep H s pn i).1.store newPN).entries =
      (s.store pn).entries.filter (fun e => Hasher H e.key (d + 1) == newIndex) ∧
    ((splitStep H s pn i).1.store pn).entries =
      (s.store pn).entries.filter (fun e => ! (Hasher H e.key (d + 1) == newIndex)) ∧
    (∀ j, j < (splitStep H s pn i).1.buckets.length →
      (splitStep H s pn i).1.buckets.getD j 0 =
        if j % 2 ^ (d + 1) = newIndex then newPN
        else (if d = s.globalDepth then s.buckets ++ s.buckets
          else s.buckets).getD j 0) ∧
    (splitStep H s pn i).2 =
      (if ((s.store pn).entries.filter
            (fun e => ! (Hasher H e.key (d + 1) == newIndex))).length ≥ MAX_BUCKET_SIZE
        then some (pn, i % 2 ^ d)
        else if ((s.store pn).entries.filter
            (fun e => Hasher H e.key (d + 1) == newIndex)).length ≥ MAX_BUCKET_SIZE
        then some (newPN, newIndex)
        else none) ∧
    (∀ fuel, split H (fuel + 1) s pn i =
      (match (splitStep H s pn i).2 with
       | none => (splitStep H s pn i).1
       | some ph => split H fuel (splitStep H s pn i).1 ph.1 ph.2)) := by
  subst hd hni hnp
  have hstep : 0 < 2 ^ ((s.store pn).localDepth + 1) := Nat.pos_pow_of_pos _ (by decide)
  have hnewlt : i % 2 ^ (s.store pn).localDepth + 2 ^ (s.store pn).localDepth <
      2 ^ ((s.store pn).localDepth + 1) := by
    have h1 : i % 2 ^ (s.store pn).localDepth < 2 ^ (s.store pn).localDepth :=
      Nat.mod_lt _ (Nat.pos_pow_of_pos _ (by decide))
    have h2 : 2 ^ ((s.store pn).localDepth + 1) = 2 ^ (s.store pn).localDepth * 2 := by
      ring
    omega
  have hfresh2 : s.nextPN ≠ pn := fun hc => hfresh hc.symm
  have hstore1 : (if (s.store pn).localDepth = s.globalDepth then ExtendTable s
      else s).store = s.store := by
    split_ifs <;> rfl
  have hnext1 : (if (s.store pn).localDepth = s.globalDepth then ExtendTable s
      else s).nextPN = s.nextPN := by
    split_ifs <;> rfl
  have hglobal1 : (if (s.store pn).localDepth = s.globalDepth then ExtendTable s
      else s).globalDepth =
      (if (s.store pn).localDepth = s.globalDepth then s.globalDepth + 1
        else s.globalDepth) := by
    split_ifs <;> rfl
  have hbuckets1 : (if (s.store pn).localDepth = s.globalDepth then ExtendTable s
      else s).buckets =
      (if (s.store pn).localDepth = s.globalDepth then s.buckets ++ s.buckets
        else s.buckets) := by
    split_ifs <;> rfl
  have hdirlen : (if (s.store pn).localDepth = s.globalDepth then
        s.buckets ++ s.buckets else s.buckets).length =
      2 ^ (if (s.store pn).localDepth = s.globalDepth then s.globalDepth + 1
        else s.globalDepth) := by
    have hps : 2 ^ (s.globalDepth + 1) = 2 ^ s.globalDepth * 2 := by ring
    split_ifs with hc
    · simp only [List.length_append, hlen]
      omega
    · exact hlen
  refine ⟨?_, ?_, ?_, ?_, ?_, ?_, ?_, ?_, ?_, ?_⟩
  · simp only [splitStep, hstore1, hnext1, hglobal1, hbuckets1]
    rfl
  · simp only [splitStep, hstore1, hnext1, hglobal1, hbuckets1]
    rw [repointLoop_length]
    exact hdirlen
  · simp only [splitStep, hstore1, hnext1, hglobal1, hbuckets1]
    simp [newHashBucket, hfresh, hfresh2]
  · simp only [splitStep, hstore1, hnext1, hglobal1, hbuckets1]
    simp [newHashBucket, hfresh, hfresh2]
  · simp only [splitStep, hstore1, hnext1, hglobal1, hbuckets1]
    simp [newHashBucket]
  · simp only [splitStep, hstore1, hnext1, hglobal1, hbuckets1]
    simp [newHashBucket, hfresh, hfresh2]
  · simp only [splitStep, hstore1, hnext1, hglobal1, hbuckets1]
    simp [newHashBucket, hfresh, hfresh2]
  · simp only [splitStep, hstore1, hnext1, hglobal1, hbuckets1]
    intro j hj
    rw [repointLoop_length] at hj
    rw [repointLoop_get _ _ _ hstep _ _ _ _ ?_ ?_]
    · generalize hG : (if (s.store pn).localDepth = s.globalDepth
        then s.globalDepth + 1 else s.globalDepth) = G2 at hdirlen hj ⊢
      generalize hD : (if (s.store pn).localDepth = s.globalDepth
        then s.buckets ++ s.buckets else s.buckets) = D at hdirlen hj ⊢
      split_ifs with h1 h2 h2
      · simp [newHashBucket]
      · exfalso
        apply h2
        rw [mod_eq_of_sub_mod_eq_zero h1.1 h1.2.2, Nat.mod_eq_of_lt hnewlt]
      · exfalso
        apply h1
        refine ⟨?_, ?_, ?_⟩
        · rw [← h2]; exact Nat.mod_le j _
        · show j < 2 ^ G2
          rw [← hdirlen]; exact hj
        · apply Nat.sub_mod_eq_zero_of_mod_eq
          rw [h2, Nat.mod_eq_of_lt hnewlt]
      · rfl
    · have hposs : (if (s.store pn).localDepth = s.globalDepth then
          s.buckets ++ s.buckets else s.buckets).length + 1 ≤
          ((if (s.store pn).localDepth = s.globalDepth then
            s.buckets ++ s.buckets else s.buckets).length + 1) *
            2 ^ ((s.store pn).localDepth + 1) :=
        Nat.le_mul_of_pos_right _ hstep
      rw [hdirlen] at hposs
      show 2 ^ (if (s.store pn).localDepth = s.globalDepth then s.globalDepth + 1
          else s.globalDepth) ≤
        i % 2 ^ (s.store pn).localDepth + 2 ^ (s.store pn).localDepth +
          ((if (s.store pn).localDepth = s.globalDepth then s.buckets ++ s.buckets
            else s.buckets).length + 1) * 2 ^ ((s.store pn).localDepth + 1)
      rw [hdirlen]
      omega
    · exact hj
  · simp only [splitStep, hstore1, hnext1, hglobal1, hbuckets1]
    rfl
  · intro fuel
    rcases hsp : splitStep H s pn i with ⟨st, req⟩
    rw [split, hsp]
    cases req <;> rfl

set_option maxRecDepth 8000 in
/-- Closed witness for C6: splitting the full depth-0 bucket of the
one-slot table, under the constant hash function. -/
theorem c6_hash_split_witness :
    ((0 : Nat) = (c6State.store 0).localDepth ∧
      (1 : Nat) = 0 % 2 ^ (0 : Nat) + 2 ^ (0 : Nat) ∧
      (1 : Int) = c6State.nextPN ∧
      c6State.buckets.length = 2 ^ c6State.globalDepth ∧
      (0 : Int) ≠ c6State.nextPN ∧
      (c6State.store 0).entries.length ≥ MAX_BUCKET_SIZE) ∧
    (splitStep (fun _ => 0) c6State 0 0).1.globalDepth =
      (if (0 : Nat) = c6State.globalDepth then c6State.globalDepth + 1
        else c6State.globalDepth) :=
  ⟨⟨by decide, by decide, by decide, by decide, by decide, by decide⟩,
   (c6_hash_split_behavior (fun _ => 0) c6State 0 0 0 1 1 (by decide) (by decide)
      (by decide) (by decide) (by decide) (by decide)).1⟩

/-- C8: Lock fails with the no-transaction error when the client has no
transaction; when the transaction already holds the resource, the call is
idempotent for an equal lock type (success, state unchanged, no blocking)
and fails with the cannot-upgrade error when a read lock is held and a
write lock is requested. -/
theorem c8_lock_held_resource_contract (tm : TmState) (client : TxId)
    (tableName : String) (key : Int) (lt : LockType) :
    (getTransaction tm client = none →
      Lock tm client tableName key lt = (tm, some .noTransaction, false)) ∧
    (∀ held, getTransaction tm client = some held →
      (heldLookup held ⟨tableName, key⟩ = some lt →
        Lock tm client tableName key lt = (tm, none, false)) ∧
      (heldLookup held ⟨tableName, key⟩ = some .rLock → lt = .wLock →
        Lock tm client tableName key lt = (tm, some .cannotUpgrade, false))) := by
  refine ⟨?_, ?_⟩
  · intro h
    simp only [Lock, h]
  · intro held hheld
    refine ⟨?_, ?_⟩
    · intro hsame
      simp only [Lock, hheld, hsame]
      cases lt <;> simp
    · intro hr hw
      subst hw
      simp only [Lock, hheld, hr]
      simp

/-- Closed witness for C8: a table with one transaction holding a read lock
exercises all three clauses. -/
theorem c8_lock_witness :
    (getTransaction c8Tm 2 = none ∧
      Lock c8Tm 2 "t" 0 .rLock = (c8Tm, some .noTransaction, false)) ∧
    (getTransaction c8Tm 1 = some [(⟨"t", 0⟩, .rLock)] ∧
      Lock c8Tm 1 "t" 0 .rLock = (c8Tm, none, false) ∧
      Lock c8Tm 1 "t" 0 .wLock = (c8Tm, some .cannotUpgrade, false)) :=
  ⟨⟨by decide, (c8_lock_held_resource_contract c8Tm 2 "t" 0 .rLock).1 (by decide)⟩,
   ⟨by decide,
    ((c8_lock_held_resource_contract c8Tm 1 "t" 0 .rLock).2
      [(⟨"t", 0⟩, .rLock)] (by decide)).1 (by decide),
    ((c8_lock_held_resource_contract c8Tm 1 "t" 0 .wLock).2
      [(⟨"t", 0⟩, .rLock)] (by decide)).2 (by decide) rfl⟩⟩

/-- C10: when the transaction already holds a write lock on the resource,
requesting a read lock succeeds without reaching the blocking mutex
acquisition, leaves the held-lock table unchanged (the write lock stays
recorded) and leaves the waits-for graph unchanged, so no edges remain
afterwards. -/
theorem c10_lock_read_after_write (tm : TmState) (client : TxId)
    (tableName : String) (key : Int) (held : List (Resource × LockType))
    (hheld : getTransaction tm client = some held)
    (hw : heldLookup held ⟨tableName, key⟩ = some .wLock) :
    Lock tm client tableName key .rLock = (tm, none, false) ∧
    (Lock tm client tableName key .rLock).1.transactions = tm.transactions ∧
    (Lock tm client tableName key .rLock).1.edges = tm.edges := by
  have h1 : Lock tm client tableName key .rLock = (tm, none, false) := by
    simp only [Lock, hheld, hw]
    simp
  exact ⟨h1, by rw [h1], by rw [h1]⟩

/-- Closed witness for C10: one transaction holding a write lock requests
the read lock on the same resource. -/
theorem c10_lock_read_after_write_witness :
    (getTransaction c10Tm 1 = some [(⟨"t", 0⟩, .wLock)] ∧
      heldLookup [(⟨"t", 0⟩, .wLock)] ⟨"t", 0⟩ = some .wLock) ∧
    Lock c10Tm 1 "t" 0 .rLock = (c10Tm, none, false) :=
  ⟨⟨by decide, by decide⟩,
   (c10_lock_read_after_write c10Tm 1 "t" 0 [(⟨"t", 0⟩, .wLock)]
      (by decide) (by decide)).1⟩

/-- A lowercase hex character is a word character. -/
lemma word_of_hex (c : Char) (h : isHexLower c = true) : isWordChar c = true := by
  unfold isHexLower at h
  unfold isWordChar
  simp only [Bool.or_eq_true, Bool.and_eq_true, decide_eq_true_eq] at h ⊢
  rcases h with ⟨h1, h2⟩ | ⟨h1, h2⟩
  · exact Or.inl (Or.inl (Or.inl ⟨h1, h2⟩))
  · exact Or.inl (Or.inl (Or.inr ⟨h1, le_trans h2 (by decide)⟩))

/-- A lowercase hex character is not the opening angle bracket. -/
lemma hex_ne_lt (c : Char) (h : isHexLower c = true) : c ≠ '<' := by
  intro he
  subst he
  exact absurd h (by decide)

/-- A word character is not the opening angle bracket. -/
lemma word_ne_lt (c : Char) (h : isWordChar c = true) : c ≠ '<' := by
  intro he
  subst he
  exact absurd h (by decide)

/-- A digit character is not the opening angle bracket. -/
lemma digit_ne_lt (c : Char) (h : isDigitChar c = true) : c ≠ '<' := by
  intro he
  subst he
  exact absurd h (by decide)

/-- run1 splits off a given complete run. -/
lemma run1_run (p : Char → Bool) (A : List Char) (c : Char) (B : List Char)
    (hA : ∀ x ∈ A, p x = true) (hc : p c = false) :
    run1 p (A ++ c :: B) = (A, c :: B) := by
  induction A with
  | nil => simp [run1, hc]
  | cons a A ih =>
    have ha : p a = true := hA a (List.mem_cons_self a A)
    simp [run1, ha, ih (fun x hx => hA x (List.mem_cons_of_mem a hx))]

/-- run1 decomposes its input, its first part satisfies the class, and
the rest starts with a character outside the class. -/
lemma run1_inv (p : Char → Bool) (s m r : List Char) (h : run1 p s = (m, r)) :
    s = m ++ r ∧ (∀ x ∈ m, p x = true) ∧ (∀ c r2, r = c :: r2 → p c = false) := by
  induction s generalizing m r with
  | nil =>
    simp only [run1] at h
    obtain ⟨hm, hr⟩ := Prod.mk.injEq .. ▸ h
    subst hm; subst hr
    exact ⟨rfl, by simp, fun c r2 hcr => absurd hcr (by simp)⟩
  | cons a s ih =>
    by_cases ha : p a = true
    · simp only [run1, ha, if_true] at h
      cases hr : run1 p s with
      | mk m' r' =>
        rw [hr] at h
        have hm : a :: m' = m := congrArg Prod.fst h
        have hr2 : r' = r := congrArg Prod.snd h
        subst hm; subst hr2
        obtain ⟨h1, h2, h3⟩ := ih m' r' hr
        refine ⟨by simp [h1], ?_, h3⟩
        intro x hx
        rcases List.mem_cons.mp hx with rfl | hx2
        · exact ha
        · exact h2 x hx2
    · have ha' : p a = false := by
        cases hpa : p a
        · rfl
        · exact absurd hpa ha
      simp only [run1, ha', Bool.false_eq_true, if_false] at h
      have hm : ([] : List Char) = m := congrArg Prod.fst h
      have hr2 : a :: s = r := congrArg Prod.snd h
      subst hm; subst hr2
      refine ⟨rfl, by simp, ?_⟩
      intro c r2 hcr
      have : c = a := by
        have := congrArg (fun l => l.headI) hcr
        simpa using this.symm
      subst this
      exact ha'

/-- takeWhile1 accepts a complete nonempty run followed by a
non-class character. -/
lemma takeWhile1_run (p : Char → Bool) (A : List Char) (c : Char) (B : List Char)
    (hA0 : A ≠ []) (hA : ∀ x ∈ A, p x = true) (hc : p c = false) :
    takeWhile1 p (A ++ c :: B) = some (A, c :: B) := by
  unfold takeWhile1
  rw [run1_run p A c B hA hc]
  simp [hA0]

/-- Inversion of takeWhile1. -/
lemma takeWhile1_inv (p : Char → Bool) (s m r : List Char)
    (h : takeWhile1 p s = some (m, r)) :
    s = m ++ r ∧ m ≠ [] ∧ (∀ x ∈ m, p x = true) ∧
      (∀ c r2, r = c :: r2 → p c = false) := by
  unfold takeWhile1 at h
  split_ifs at h with hemp
  have h2 : run1 p s = (m, r) := Option.some.inj h
  obtain ⟨h1, h3, h4⟩ := run1_inv p s m r h2
  refine ⟨h1, ?_, h3, h4⟩
  intro hm
  rw [h2, hm] at hemp
  exact absurd rfl hemp

/-- litP consumes exactly its literal. -/
lemma litP_run (pat rest : List Char) : litP pat (pat ++ rest) = some rest := by
  induction pat with
  | nil => rfl
  | cons p ps ih => simp [litP, ih]

/-- Inversion of litP. -/
lemma litP_inv (pat s r : List Char) (h : litP pat s = some r) : s = pat ++ r := by
  induction pat generalizing s with
  | nil =>
    have : s = r := Option.some.inj h
    simp [this]
  | cons p ps ih =>
    cases s with
    | nil => exact Option.noConfusion h
    | cons c cs =>
      unfold litP at h
      split_ifs at h with hc
      subst hc
      simp [ih cs h]

/-- hexChars consumes exactly a run of the right length. -/
lemma hexChars_run (n : Nat) (A B : List Char) (hlen : A.length = n)
    (hall : ∀ c ∈ A, isHexLower c = true) : hexChars n (A ++ B) = some (A, B) := by
  subst hlen
  induction A with
  | nil => rfl
  | cons a A ih =>
    have ha := hall a (List.mem_cons_self a A)
    simp [hexChars, ha, ih (fun c hc => hall c (List.mem_cons_of_mem a hc))]

/-- Inversion of hexChars. -/
lemma hexChars_inv (n : Nat) (s m r : List Char) (h : hexChars n s = some (m, r)) :
    s = m ++ r ∧ m.length = n ∧ ∀ c ∈ m, isHexLower c = true := by
  induction n generalizing s m r with
  | zero =>
    have h2 : (([], s) : List Char × List Char) = (m, r) := Option.some.inj h
    have hm : ([] : List Char) = m := congrArg Prod.fst h2
    have hr : s = r := congrArg Prod.snd h2
    subst hm; subst hr
    exact ⟨rfl, rfl, by simp⟩
  | succ n ih =>
    cases s with
    | nil => exact Option.noConfusion h
    | cons c cs =>
      unfold hexChars at h
      split_ifs at h with hc
      cases hx : hexChars n cs with
      | none => rw [hx] at h; exact Option.noConfusion h
      | some p =>
        obtain ⟨m', r'⟩ := p
        rw [hx] at h
        have h2 : (c :: m', r') = (m, r) := Option.some.inj h
        have hm : c :: m' = m := congrArg Prod.fst h2
        have hr : r' = r := congrArg Prod.snd h2
        subst hm; subst hr
        obtain ⟨h1, h3, h4⟩ := ih cs m' r' hx
        refine ⟨by simp [h1], by simp [h3], ?_⟩
        intro x hx2
        rcases List.mem_cons.mp hx2 with rfl | hx3
        · exact hc
        · exact h4 x hx3

/-- Inversion of a bind returning some. -/
lemma bind_some_inv {α β : Type} {x : Option α} {f : α → Option β} {r : β}
    (h : x.bind f = some r) : ∃ a, x = some a ∧ f a = some r := by
  cases x with
  | none => exact Option.noConfusion h
  | some a => exact ⟨a, rfl, h⟩

/-- Inversion of a map returning some. -/
lemma map_some_inv {α β : Type} {x : Option α} {f : α → β} {r : β}
    (h : x.map f = some r) : ∃ a, x = some a ∧ f a = r := by
  cases x with
  | none => exact Option.noConfusion h
  | some a => exact ⟨a, rfl, Option.some.inj h⟩

/-- uuidAt accepts any uuid-shaped prefix. -/
lemma uuidAt_run (u rest : List Char) (h : uuidShape u) :
    uuidAt (u ++ rest) = some (u, rest) := by
  obtain ⟨g1, g2, g3, g4, g5, hu, hl1, hl2, hl3, hl4, hl5, hh1, hh2, hh3, hh4, hh5⟩ := h
  subst hu
  have e1 := hexChars_run 8 g1
    ('-' :: (g2 ++ '-' :: (g3 ++ '-' :: (g4 ++ '-' :: (g5 ++ rest))))) hl1 hh1
  have e2 := hexChars_run 4 g2
    ('-' :: (g3 ++ '-' :: (g4 ++ '-' :: (g5 ++ rest)))) hl2 hh2
  have e3 := hexChars_run 4 g3 ('-' :: (g4 ++ '-' :: (g5 ++ rest))) hl3 hh3
  have e4 := hexChars_run 4 g4 ('-' :: (g5 ++ rest)) hl4 hh4
  have e5 := hexChars_run 12 g5 rest hl5 hh5
  simp [uuidAt, List.append_assoc, List.cons_append, e1, e2, e3, e4, e5,
    Option.bind, litP]

/-- Inversion of uuidAt: the match is the consumed prefix and has
uuid shape. -/
lemma uuidAt_inv (s m r : List Char) (h : uuidAt s = some (m, r)) :
    s = m ++ r ∧ uuidShape m := by
  unfold uuidAt at h
  obtain ⟨p1, hp1, h⟩ := bind_some_inv h
  obtain ⟨pa1, pb1⟩ := p1
  obtain ⟨r1, hr1, h⟩ := bind_some_inv h
  obtain ⟨p2, hp2, h⟩ := bind_some_inv h
  obtain ⟨pa2, pb2⟩ := p2
  obtain ⟨r2, hr2, h⟩ := bind_some_inv h
  obtain ⟨p3, hp3, h⟩ := bind_some_inv h
  obtain ⟨pa3, pb3⟩ := p3
  obtain ⟨r3, hr3, h⟩ := bind_some_inv h
  obtain ⟨p4, hp4, h⟩ := bind_some_inv h
  obtain ⟨pa4, pb4⟩ := p4
  obtain ⟨r4, hr4, h⟩ := bind_some_inv h
  obtain ⟨p5, hp5, h⟩ := map_some_inv h
  obtain ⟨pa5, pb5⟩ := p5
  obtain ⟨hs, hn1, hx1⟩ := hexChars_inv 8 s pa1 pb1 hp1
  have hb1 : pb1 = ['-'] ++ r1 := litP_inv _ _ _ hr1
  obtain ⟨hs2, hn2, hx2⟩ := hexChars_inv 4 r1 pa2 pb2 hp2
  have hb2 : pb2 = ['-'] ++ r2 := litP_inv _ _ _ hr2
  obtain ⟨hs3, hn3, hx3⟩ := hexChars_inv 4 r2 pa3 pb3 hp3
  have hb3 : pb3 = ['-'] ++ r3 := litP_inv _ _ _ hr3
  obtain ⟨hs4, hn4, hx4⟩ := hexChars_inv 4 r3 pa4 pb4 hp4
  have hb4 : pb4 = ['-'] ++ r4 := litP_inv _ _ _ hr4
  obtain ⟨hs5, hn5, hx5⟩ := hexChars_inv 12 r4 pa5 pb5 hp5
  have hm : pa1 ++ '-' :: (pa2 ++ '-' :: (pa3 ++ '-' :: (pa4 ++ '-' :: pa5))) = m := by
    have := congrArg Prod.fst h
    simpa using this
  have hr : pb5 = r := by
    have := congrArg Prod.snd h
    simpa using this
  subst hr
  constructor
  · rw [hs, hb1, hs2, hb2, hs3, hb3, hs4, hb4, hs5, ← hm]
    simp
  · exact hm ▸ ⟨pa1, pa2, pa3, pa4, pa5, rfl, hn1, hn2, hn3, hn4, hn5,
      hx1, hx2, hx3, hx4, hx5⟩

/-- A uuidOk string has uuid shape. -/
lemma uuidShape_of_uuidOk (u : List Char) (h : uuidOk u = true) : uuidShape u := by
  have h2 : uuidAt u = some (u, []) := of_decide_eq_true h
  exact (uuidAt_inv u u [] h2).2

/-- uuidAt accepts a uuidOk prefix. -/
lemma uuidAt_run_ok (u rest : List Char) (h : uuidOk u = true) :
    uuidAt (u ++ rest) = some (u, rest) :=
  uuidAt_run u rest (uuidShape_of_uuidOk u h)

/-- A uuid-shaped string has length 36. -/
lemma uuidShape_length (u : List Char) (h : uuidShape u) : u.length = 36 := by
  obtain ⟨g1, g2, g3, g4, g5, hu, hl1, hl2, hl3, hl4, hl5, -, -, -, -, -⟩ := h
  subst hu
  simp [hl1, hl2, hl3, hl4, hl5]

/-- A uuid-shaped string contains no opening angle bracket. -/
lemma uuid_no_lt (u : List Char) (h : uuidShape u) : ∀ c ∈ u, c ≠ '<' := by
  obtain ⟨g1, g2, g3, g4, g5, hu, -, -, -, -, -, hh1, hh2, hh3, hh4, hh5⟩ := h
  subst hu
  intro c hc
  simp only [List.mem_append, List.mem_cons] at hc
  rcases hc with h1 | rfl | h2 | rfl | h3 | rfl | h4 | rfl | h5
  · exact hex_ne_lt c (hh1 c h1)
  · decide
  · exact hex_ne_lt c (hh2 c h2)
  · decide
  · exact hex_ne_lt c (hh3 c h3)
  · decide
  · exact hex_ne_lt c (hh4 c h4)
  · decide
  · exact hex_ne_lt c (hh5 c h5)

/-- uuidAt fails when the first character is not lowercase hex. -/
lemma uuidAt_head_none (c : Char) (cs : List Char) (hc : isHexLower c = false) :
    uuidAt (c :: cs) = none := by
  have h8 : hexChars 8 (c :: cs) = none := by simp [hexChars, hc]
  simp [uuidAt, h8]

/-- Digit characters evaluate to their digit. -/
lemma charVal_digitChar : ∀ d, d < 10 → charVal (digitChar d) = d := by decide

/-- Digit characters are in the digit class. -/
lemma isDigit_digitChar : ∀ d, d < 10 → isDigitChar (digitChar d) = true := by decide

/-- Folding the rendered digits recovers the number. -/
lemma foldl_digits (L : List Nat) (hL : ∀ d ∈ L, d < 10) :
    ∀ a, (L.reverse.map digitChar).foldl (fun x c => 10 * x + charVal c) a =
      a * 10 ^ L.length + Nat.ofDigits 10 L := by
  induction L with
  | nil => intro a; simp [Nat.ofDigits]
  | cons d L ih =>
    intro a
    have hd := hL d (List.mem_cons_self d L)
    simp only [List.reverse_cons, List.map_append, List.foldl_append, List.map_cons,
      List.map_nil, List.foldl_cons, List.foldl_nil]
    rw [ih (fun x hx => hL x (List.mem_cons_of_mem d hx)) a,
      charVal_digitChar d hd, Nat.ofDigits_cons, List.length_cons]
    ring

/-- With enough fuel, the fuelled digits are Mathlib's base-10 digits. -/
lemma digitsRev_eq : ∀ (fuel n : Nat), n < fuel → digitsRev fuel n = Nat.digits 10 n := by
  intro fuel
  induction fuel with
  | zero => intro n h; exact absurd h (Nat.not_lt_zero n)
  | succ f ih =>
    intro n h
    by_cases hn : n = 0
    · subst hn; simp [digitsRev]
    · rw [show digitsRev (f + 1) n = n % 10 :: digitsRev f (n / 10) from by
        simp [digitsRev, hn]]
      have hd : Nat.digits 10 n = n % 10 :: Nat.digits 10 (n / 10) :=
        Nat.digits_def' (by norm_num) (by omega)
      rw [hd, ih (n / 10) (by omega)]

/-- Parsing the decimal rendering of a number recovers it. -/
lemma parseNat_numChars (n : Nat) : parseNat (numChars n) = n := by
  by_cases h : n = 0
  · subst h; decide
  · unfold numChars parseNat
    rw [if_neg h, digitsRev_eq (n + 1) n (by omega),
      foldl_digits (Nat.digits 10 n) (fun d hd => Nat.digits_lt_base (by norm_num) hd) 0]
    simp [Nat.ofDigits_digits]

/-- The decimal rendering is nonempty. -/
lemma numChars_ne_nil (n : Nat) : numChars n ≠ [] := by
  by_cases h : n = 0
  · subst h; decide
  · simp [numChars, h, digitsRev_eq (n + 1) n (by omega), Nat.digits_ne_nil_iff_ne_zero]

/-- The decimal rendering consists of digit characters. -/
lemma numChars_digits (n : Nat) : ∀ c ∈ numChars n, isDigitChar c = true := by
  by_cases h : n = 0
  · subst h; decide
  · intro c hc
    simp only [numChars, h, if_false, digitsRev_eq (n + 1) n (by omega),
      List.mem_map, List.mem_reverse] at hc
    obtain ⟨d, hd, rfl⟩ := hc
    exact isDigit_digitChar d (Nat.digits_lt_base (by norm_num) hd)

/-- Non-negative int64 values render without a sign. -/
lemma intChars_nonneg (k : Int) (h : 0 ≤ k) : intChars k = numChars k.toNat := by
  unfold intChars
  rw [if_neg (by omega)]

/-- Atoi recovers an in-range number from its rendering. -/
lemma goAtoi_numChars (m : Nat) (h : m < 2 ^ 63) : goAtoi (numChars m) = m := by
  unfold goAtoi
  rw [parseNat_numChars]
  omega

/-- scan returns a match found at the first position. -/
lemma scan_some {α : Type} (m : List Char → Option α) (s : List Char) (r : α)
    (h : m s = some r) : scan m s = some r := by
  cases s with
  | nil => simpa [scan] using h
  | cons c cs => simp [scan, h]

/-- scan fails when the matcher fails at every suffix. -/
lemma scan_none {α : Type} (m : List Char → Option α) (s : List Char)
    (h : ∀ t, t <:+ s → m t = none) : scan m s = none := by
  induction s with
  | nil => simpa [scan] using h [] (by simp)
  | cons c cs ih =>
    have h0 := h (c :: cs) (List.suffix_refl _)
    simp only [scan, h0]
    exact ih (fun t ht => h t (ht.trans (List.suffix_cons c cs)))

/-- scan fails for a matcher that requires an opening angle bracket when
the head position fails and no later character is an angle bracket. -/
lemma scan_none_of_shape {α : Type} (m : List Char → Option α)
    (hshape : ∀ t r, m t = some r → ∃ u, t = '<' :: u)
    (c0 : Char) (body : List Char)
    (h0 : m (c0 :: body) = none) (hbody : ∀ c ∈ body, c ≠ '<') :
    scan m (c0 :: body) = none := by
  apply scan_none
  intro t ht
  rcases List.suffix_cons_iff.mp ht with rfl | ht2
  · exact h0
  · cases hmt : m t with
    | none => rfl
    | some r =>
      obtain ⟨u, hu⟩ := hshape t r hmt
      subst hu
      exact absurd rfl (hbody '<' (ht2.subset (List.mem_cons_self '<' u)))

/-- A successful tableExp match starts with "< create ". -/
lemma tableMatchAt_pre (t : List Char) (r : List Char × List Char)
    (h : tableMatchAt t = some r) : ∃ s1, t = lCreate ++ s1 := by
  unfold tableMatchAt at h
  obtain ⟨s1, hs1, -⟩ := bind_some_inv h
  exact ⟨s1, litP_inv _ _ _ hs1⟩

/-- A successful tableExp match starts with an angle bracket. -/
lemma tableMatchAt_shape (t : List Char) (r : List Char × List Char)
    (h : tableMatchAt t = some r) : ∃ u, t = '<' :: u := by
  obtain ⟨s1, h1⟩ := tableMatchAt_pre t r h
  exact ⟨' ' :: 'c' :: 'r' :: 'e' :: 'a' :: 't' :: 'e' :: ' ' :: s1, by rw [h1]; rfl⟩

/-- Inversion of editMatchAt down to the table-name capture. -/
lemma editMatchAt_inv (t : List Char)
    (r : List Char × List Char × RedoAction × List Char × List Char × List Char)
    (h : editMatchAt t = some r) :
    ∃ s1 uid s3 tn s5, t = lAngle ++ s1 ∧ uuidAt s1 = some (uid, lComma ++ s3) ∧
      takeWhile1 isWordChar s3 = some (tn, lComma ++ s5) := by
  unfold editMatchAt at h
  obtain ⟨s1, hs1, h⟩ := bind_some_inv h
  obtain ⟨pu, hpu, h⟩ := bind_some_inv h
  obtain ⟨u1, u2⟩ := pu
  obtain ⟨s3, hs3, h⟩ := bind_some_inv h
  obtain ⟨pt, hpt, h⟩ := bind_some_inv h
  obtain ⟨t1, t2⟩ := pt
  obtain ⟨s5, hs5, -⟩ := bind_some_inv h
  have hb3 : u2 = lComma ++ s3 := litP_inv _ _ _ hs3
  have hb5 : t2 = lComma ++ s5 := litP_inv _ _ _ hs5
  exact ⟨s1, u1, s3, t1, s5, litP_inv _ _ _ hs1, hb3 ▸ hpu, hb5 ▸ hpt⟩

/-- A successful editExp match starts with an angle bracket. -/
lemma editMatchAt_shape (t : List Char)
    (r : List Char × List Char × RedoAction × List Char × List Char × List Char)
    (h : editMatchAt t = some r) : ∃ u, t = '<' :: u := by
  obtain ⟨s1, -, -, -, -, h1, -, -⟩ := editMatchAt_inv t r h
  exact ⟨' ' :: s1, by rw [h1]; rfl⟩

/-- Inversion of startMatchAt. -/
lemma startMatchAt_inv (t : List Char) (r : List Char) (h : startMatchAt t = some r) :
    ∃ s1 uid s2, t = lAngle ++ s1 ∧ uuidAt s1 = some (uid, lStart ++ s2) := by
  unfold startMatchAt at h
  obtain ⟨s1, hs1, h⟩ := bind_some_inv h
  obtain ⟨pu, hpu, h⟩ := bind_some_inv h
  obtain ⟨u1, u2⟩ := pu
  obtain ⟨s2, hs2, -⟩ := map_some_inv h
  have hb : u2 = lStart ++ s2 := litP_inv _ _ _ hs2
  exact ⟨s1, u1, s2, litP_inv _ _ _ hs1, hb ▸ hpu⟩

/-- A successful startExp match starts with an angle bracket. -/
lemma startMatchAt_shape (t : List Char) (r : List Char) (h : startMatchAt t = some r) :
    ∃ u, t = '<' :: u := by
  obtain ⟨s1, -, -, h1, -⟩ := startMatchAt_inv t r h
  exact ⟨' ' :: s1, by rw [h1]; rfl⟩

/-- Inversion of commitMatchAt. -/
lemma commitMatchAt_inv (t : List Char) (r : List Char) (h : commitMatchAt t = some r) :
    ∃ s1 uid s2, t = lAngle ++ s1 ∧ uuidAt s1 = some (uid, lCommit ++ s2) := by
  unfold commitMatchAt at h
  obtain ⟨s1, hs1, h⟩ := bind_some_inv h
  obtain ⟨pu, hpu, h⟩ := bind_some_inv h
  obtain ⟨u1, u2⟩ := pu
  obtain ⟨s2, hs2, -⟩ := map_some_inv h
  have hb : u2 = lCommit ++ s2 := litP_inv _ _ _ hs2
  exact ⟨s1, u1, s2, litP_inv _ _ _ hs1, hb ▸ hpu⟩

/-- A successful commitExp match starts with an angle bracket. -/
lemma commitMatchAt_shape (t : List Char) (r : List Char) (h : commitMatchAt t = some r) :
    ∃ u, t = '<' :: u := by
  obtain ⟨s1, -, -, h1, -⟩ := commitMatchAt_inv t r h
  exact ⟨' ' :: s1, by rw [h1]; rfl⟩

/-- Concatenation preserves freedom from angle brackets. -/
lemma noLt_append {a b : List Char} (ha : ∀ c ∈ a, c ≠ '<') (hb : ∀ c ∈ b, c ≠ '<') :
    ∀ c ∈ a ++ b, c ≠ '<' := by
  intro c hc
  rcases List.mem_append.mp hc with h | h
  · exact ha c h
  · exact hb c h

/-- The parts of a well-formed name. -/
lemma nameOk_parts (s : List Char) (h : nameOk s = true) :
    s ≠ [] ∧ ∀ c ∈ s, isWordChar c = true := by
  unfold nameOk at h
  rw [Bool.and_eq_true] at h
  obtain ⟨h1, h2⟩ := h
  exact ⟨by simpa using h1, List.all_eq_true.mp h2⟩

/-- A well-formed name contains no angle bracket. -/
lemma name_no_lt (s : List Char) (h : nameOk s = true) : ∀ c ∈ s, c ≠ '<' :=
  fun c hc => word_ne_lt c ((nameOk_parts s h).2 c hc)

/-- A rendered number contains no angle bracket. -/
lemma num_no_lt (n : Nat) : ∀ c ∈ numChars n, c ≠ '<' :=
  fun c hc => digit_ne_lt c (numChars_digits n c hc)

/-- A rendered action contains no angle bracket. -/
lemma action_no_lt (a : RedoAction) : ∀ c ∈ actionChars a, c ≠ '<' := by
  cases a <;> decide

/-- A checkpoint body contains no angle bracket. -/
lemma cpBody_no_lt (ids : List (List Char)) (h : ∀ u ∈ ids, uuidShape u) :
    ∀ c ∈ cpBody ids, c ≠ '<' := by
  induction ids with
  | nil => exact (by decide)
  | cons u rest ih =>
    have hu := uuid_no_lt u (h u (List.mem_cons_self u rest))
    cases rest with
    | nil => exact noLt_append hu (by decide)
    | cons u2 rest2 =>
      exact noLt_append hu
        (noLt_append (by decide) (ih (fun v hv => h v (List.mem_cons_of_mem u hv))))

/-- tableExp cannot match at a position followed by a uuid: the second
uuid character is lowercase hex, never the letter r of "create". -/
lemma tableMatchAt_uuid_none (id rest : List Char) (h : uuidShape id) :
    tableMatchAt (lAngle ++ (id ++ rest)) = none := by
  cases hm : tableMatchAt (lAngle ++ (id ++ rest)) with
  | none => rfl
  | some r =>
    obtain ⟨s1, h1⟩ := tableMatchAt_pre _ r hm
    obtain ⟨g1, g2, g3, g4, g5, hu, hl1, -, -, -, -, hh1, -, -, -, -⟩ := h
    subst hu
    cases g1 with
    | nil => simp at hl1
    | cons a g1' =>
      cases g1' with
      | nil => simp at hl1
      | cons b g1'' =>
        have hb : b = 'r' := by
          simp [lAngle, lCreate, List.cons_append, List.append_assoc] at h1
          exact h1.2.1
        have hhex : isHexLower b = true := hh1 b (by simp)
        rw [hb] at hhex
        exact absurd hhex (by decide)

/-- editExp cannot match at the head of a start line: after the uuid the
line continues with a space, not a comma. -/
lemma editMatchAt_start_none (id : List Char) (h : uuidShape id) :
    editMatchAt (lAngle ++ (id ++ lStartNl)) = none := by
  cases hm : editMatchAt (lAngle ++ (id ++ lStartNl)) with
  | none => rfl
  | some r =>
    obtain ⟨s1, uid, s3, tn, s5, h1, h2, -⟩ := editMatchAt_inv _ r hm
    have hs1 : s1 = id ++ lStartNl := (List.append_cancel_left h1).symm
    subst hs1
    rw [uuidAt_run id lStartNl h] at h2
    have h3 := congrArg Prod.snd (Option.some.inj h2)
    have h4 : (' ' : Char) = ',' := by
      have := congrArg (fun l => l.headI) h3
      simpa [lStartNl, lComma] using this
    exact absurd h4 (by decide)

/-- editExp cannot match at the head of a commit line. -/
lemma editMatchAt_commit_none (id : List Char) (h : uuidShape id) :
    editMatchAt (lAngle ++ (id ++ lCommitNl)) = none := by
  cases hm : editMatchAt (lAngle ++ (id ++ lCommitNl)) with
  | none => rfl
  | some r =>
    obtain ⟨s1, uid, s3, tn, s5, h1, h2, -⟩ := editMatchAt_inv _ r hm
    have hs1 : s1 = id ++ lCommitNl := (List.append_cancel_left h1).symm
    subst hs1
    rw [uuidAt_run id lCommitNl h] at h2
    have h3 := congrArg Prod.snd (Option.some.inj h2)
    have h4 : (' ' : Char) = ',' := by
      have := congrArg (fun l => l.headI) h3
      simpa [lCommitNl, lComma] using this
    exact absurd h4 (by decide)

/-- editExp cannot match at the head of a checkpoint line: the table-name
capture would have to be a uuid hex group, which a dash terminates where
the pattern requires a comma. -/
lemma editMatchAt_cp_none (u : List Char) (rest : List (List Char))
    (hu : uuidShape u) (hrest : ∀ v ∈ rest, uuidShape v) :
    editMatchAt (lAngle ++ cpBody (u :: rest)) = none := by
  cases hm : editMatchAt (lAngle ++ cpBody (u :: rest)) with
  | none => rfl
  | some r =>
    obtain ⟨s1, uid, s3, tn, s5, h1, h2, h3⟩ := editMatchAt_inv _ r hm
    have hs1 : s1 = cpBody (u :: rest) := (List.append_cancel_left h1).symm
    subst hs1
    cases rest with
    | nil =>
      rw [show cpBody [u] = u ++ (' ' :: lCheckpointNl) from rfl] at h2
      rw [uuidAt_run u (' ' :: lCheckpointNl) hu] at h2
      have hsnd := congrArg Prod.snd (Option.some.inj h2)
      have h4 : (' ' : Char) = ',' := by
        have := congrArg (fun l => l.headI) hsnd
        simpa [lComma] using this
      exact absurd h4 (by decide)
    | cons u2 rest2 =>
      rw [show cpBody (u :: u2 :: rest2) = u ++ (lComma ++ cpBody (u2 :: rest2)) from rfl] at h2
      rw [uuidAt_run u (lComma ++ cpBody (u2 :: rest2)) hu] at h2
      have hsnd := congrArg Prod.snd (Option.some.inj h2)
      have hs3 : s3 = cpBody (u2 :: rest2) := by
        have : lComma ++ cpBody (u2 :: rest2) = lComma ++ s3 := by
          simpa using hsnd
        exact (List.append_cancel_left this).symm
      subst hs3
      obtain ⟨Z, hZ⟩ : ∃ Z, cpBody (u2 :: rest2) = u2 ++ Z := by
        cases rest2 with
        | nil => exact ⟨' ' :: lCheckpointNl, rfl⟩
        | cons u3 r3 => exact ⟨lComma ++ cpBody (u3 :: r3), rfl⟩
      obtain ⟨g1, g2, g3, g4, g5, hu2, hl1, -, -, -, -, hh1, -, -, -, -⟩ :=
        hrest u2 (List.mem_cons_self u2 rest2)
      have hg1ne : g1 ≠ [] := by
        intro hg
        rw [hg] at hl1
        simp at hl1
      have hrun : takeWhile1 isWordChar (cpBody (u2 :: rest2)) =
          some (g1, '-' :: ((g2 ++ '-' :: (g3 ++ '-' :: (g4 ++ '-' :: g5))) ++ Z)) := by
        rw [hZ, hu2]
        have := takeWhile1_run isWordChar g1 '-'
          ((g2 ++ '-' :: (g3 ++ '-' :: (g4 ++ '-' :: g5))) ++ Z)
          hg1ne (fun c hc => word_of_hex c (hh1 c hc)) (by decide)
        rw [← this]
        simp [List.append_assoc]
      rw [hrun] at h3
      have hsnd2 := congrArg Prod.snd (Option.some.inj h3)
      have h5 : ('-' : Char) = ',' := by
        have := congrArg (fun l => l.headI) hsnd2.symm
        simpa [lComma] using this
      exact absurd h5 (by decide)

/-- startExp cannot match at the head of a commit line. -/
lemma startMatchAt_commit_none (id : List Char) (h : uuidShape id) :
    startMatchAt (lAngle ++ (id ++ lCommitNl)) = none := by
  cases hm : startMatchAt (lAngle ++ (id ++ lCommitNl)) with
  | none => rfl
  | some r =>
    obtain ⟨s1, uid, s2, h1, h2⟩ := startMatchAt_inv _ r hm
    have hs1 : s1 = id ++ lCommitNl := (List.append_cancel_left h1).symm
    subst hs1
    rw [uuidAt_run id lCommitNl h] at h2
    have hsnd := congrArg Prod.snd (Option.some.inj h2)
    have h4 : ('c' : Char) = 's' := by
      have := congrArg (fun l => l.tail.headI) hsnd
      simpa [lCommitNl, lStart] using this
    exact absurd h4 (by decide)

/-- startExp cannot match at the head of a checkpoint line. -/
lemma startMatchAt_cp_none (u : List Char) (rest : List (List Char)) (hu : uuidShape u) :
    startMatchAt (lAngle ++ cpBody (u :: rest)) = none := by
  cases hm : startMatchAt (lAngle ++ cpBody (u :: rest)) with
  | none => rfl
  | some r =>
    obtain ⟨s1, uid, s2, h1, h2⟩ := startMatchAt_inv _ r hm
    have hs1 : s1 = cpBody (u :: rest) := (List.append_cancel_left h1).symm
    subst hs1
    cases rest with
    | nil =>
      rw [show cpBody [u] = u ++ (' ' :: lCheckpointNl) from rfl] at h2
      rw [uuidAt_run u (' ' :: lCheckpointNl) hu] at h2
      have hsnd := congrArg Prod.snd (Option.some.inj h2)
      have h4 : ('c' : Char) = 's' := by
        have := congrArg (fun l => l.tail.headI) hsnd
        simpa [lCheckpointNl, lStart] using this
      exact absurd h4 (by decide)
    | cons u2 rest2 =>
      rw [show cpBody (u :: u2 :: rest2) = u ++ (lComma ++ cpBody (u2 :: rest2)) from rfl] at h2
      rw [uuidAt_run u (lComma ++ cpBody (u2 :: rest2)) hu] at h2
      have hsnd := congrArg Prod.snd (Option.some.inj h2)
      have h4 : (',' : Char) = ' ' := by
        have := congrArg (fun l => l.headI) hsnd
        simpa [lComma, lStart] using this
      exact absurd h4 (by decide)

/-- commitExp cannot match at the head of a checkpoint line. -/
lemma commitMatchAt_cp_none (u : List Char) (rest : List (List Char)) (hu : uuidShape u) :
    commitMatchAt (lAngle ++ cpBody (u :: rest)) = none := by
  cases hm : commitMatchAt (lAngle ++ cpBody (u :: rest)) with
  | none => rfl
  | some r =>
    obtain ⟨s1, uid, s2, h1, h2⟩ := commitMatchAt_inv _ r hm
    have hs1 : s1 = cpBody (u :: rest) := (List.append_cancel_left h1).symm
    subst hs1
    cases rest with
    | nil =>
      rw [show cpBody [u] = u ++ (' ' :: lCheckpointNl) from rfl] at h2
      rw [uuidAt_run u (' ' :: lCheckpointNl) hu] at h2
      have hsnd := congrArg Prod.snd (Option.some.inj h2)
      have h4 : ('h' : Char) = 'o' := by
        have := congrArg (fun l => l.tail.tail.headI) hsnd
        simpa [lCheckpointNl, lCommit] using this
      exact absurd h4 (by decide)
    | cons u2 rest2 =>
      rw [show cpBody (u :: u2 :: rest2) = u ++ (lComma ++ cpBody (u2 :: rest2)) from rfl] at h2
      rw [uuidAt_run u (lComma ++ cpBody (u2 :: rest2)) hu] at h2
      have hsnd := congrArg Prod.snd (Option.some.inj h2)
      have h4 : (',' : Char) = ' ' := by
        have := congrArg (fun l => l.headI) hsnd
        simpa [lComma, lCommit] using this
      exact absurd h4 (by decide)

/-- A well-formed name run terminated by ", ". -/
lemma takeWhile1_name_comma (tn X : List Char) (h : nameOk tn = true) :
    takeWhile1 isWordChar (tn ++ (lComma ++ X)) = some (tn, lComma ++ X) := by
  obtain ⟨h1, h2⟩ := nameOk_parts tn h
  exact takeWhile1_run isWordChar tn ',' (' ' :: X) h1 h2 (by decide)

/-- A well-formed name run terminated by " table ". -/
lemma takeWhile1_name_table (ty X : List Char) (h : nameOk ty = true) :
    takeWhile1 isWordChar (ty ++ (lTable ++ X)) = some (ty, lTable ++ X) := by
  obtain ⟨h1, h2⟩ := nameOk_parts ty h
  exact takeWhile1_run isWordChar ty ' '
    ('t' :: 'a' :: 'b' :: 'l' :: 'e' :: ' ' :: X) h1 h2 (by decide)

/-- A well-formed name run terminated by " >\n". -/
lemma takeWhile1_name_end (nm : List Char) (h : nameOk nm = true) :
    takeWhile1 isWordChar (nm ++ lEndNl) = some (nm, lEndNl) := by
  obtain ⟨h1, h2⟩ := nameOk_parts nm h
  exact takeWhile1_run isWordChar nm ' ' ('>' :: '\n' :: []) h1 h2 (by decide)

/-- A digit run terminated by ", ". -/
lemma takeWhile1_num_comma (n : Nat) (X : List Char) :
    takeWhile1 isDigitChar (numChars n ++ (lComma ++ X)) = some (numChars n, lComma ++ X) :=
  takeWhile1_run isDigitChar (numChars n) ',' (' ' :: X)
    (numChars_ne_nil n) (numChars_digits n) (by decide)

/-- A digit run terminated by " >\n". -/
lemma takeWhile1_num_end (n : Nat) :
    takeWhile1 isDigitChar (numChars n ++ lEndNl) = some (numChars n, lEndNl) :=
  takeWhile1_run isDigitChar (numChars n) ' ' ('>' :: '\n' :: [])
    (numChars_ne_nil n) (numChars_digits n) (by decide)

/-- The action alternation accepts each serialized action. -/
lemma actionAt_run (a : RedoAction) (rest : List Char) :
    actionAt (actionChars a ++ rest) = some (a, rest) := by
  cases a with
  | insertA =>
    simp [actionAt, actionChars, litP_run,
      show litP lUPDATE (lINSERT ++ rest) = none from rfl]
  | updateA => simp [actionAt, actionChars, litP_run]
  | deleteA =>
    simp [actionAt, actionChars, litP_run,
      show litP lUPDATE (lDELETE ++ rest) = none from rfl,
      show litP lINSERT (lDELETE ++ rest) = none from rfl]

/-- tableExp matches a serialized table line at its head. -/
lemma tableMatchAt_ok (ty nm : List Char) (hty : nameOk ty = true) (hnm : nameOk nm = true) :
    tableMatchAt (lCreate ++ (ty ++ (lTable ++ (nm ++ lEndNl)))) = some (ty, nm) := by
  have e1 := litP_run lCreate (ty ++ (lTable ++ (nm ++ lEndNl)))
  have e2 := takeWhile1_name_table ty (nm ++ lEndNl) hty
  have e3 := litP_run lTable (nm ++ lEndNl)
  have e4 := takeWhile1_name_end nm hnm
  have e5 : litP lEnd lEndNl = some ('\n' :: []) := rfl
  simp [tableMatchAt, e1, e2, e3, e4, e5, Option.bind]

/-- editExp matches a serialized edit line at its head, capturing all
six fields. -/
lemma editMatchAt_ok (id tn : List Char) (a : RedoAction) (k ov nv : Nat)
    (hid : uuidShape id) (htn : nameOk tn = true) :
    editMatchAt (lAngle ++ (id ++ (lComma ++ (tn ++ (lComma ++ (actionChars a ++ (lComma ++
        (numChars k ++ (lComma ++ (numChars ov ++ (lComma ++ (numChars nv ++ lEndNl)))))))))))) =
      some (id, tn, a, numChars k, numChars ov, numChars nv) := by
  have e1 := litP_run lAngle
    (id ++ (lComma ++ (tn ++ (lComma ++ (actionChars a ++ (lComma ++
      (numChars k ++ (lComma ++ (numChars ov ++ (lComma ++ (numChars nv ++ lEndNl)))))))))))
  have e2 := uuidAt_run id
    (lComma ++ (tn ++ (lComma ++ (actionChars a ++ (lComma ++
      (numChars k ++ (lComma ++ (numChars ov ++ (lComma ++ (numChars nv ++ lEndNl)))))))))) hid
  have e3 := litP_run lComma
    (tn ++ (lComma ++ (actionChars a ++ (lComma ++
      (numChars k ++ (lComma ++ (numChars ov ++ (lComma ++ (numChars nv ++ lEndNl)))))))))
  have e4 := takeWhile1_name_comma tn
    (actionChars a ++ (lComma ++
      (numChars k ++ (lComma ++ (numChars ov ++ (lComma ++ (numChars nv ++ lEndNl))))))) htn
  have e5 := litP_run lComma
    (actionChars a ++ (lComma ++
      (numChars k ++ (lComma ++ (numChars ov ++ (lComma ++ (numChars nv ++ lEndNl)))))))
  have e6 := actionAt_run a
    (lComma ++ (numChars k ++ (lComma ++ (numChars ov ++ (lComma ++ (numChars nv ++ lEndNl))))))
  have e7 := litP_run lComma
    (numChars k ++ (lComma ++ (numChars ov ++ (lComma ++ (numChars nv ++ lEndNl)))))
  have e8 := takeWhile1_num_comma k (numChars ov ++ (lComma ++ (numChars nv ++ lEndNl)))
  have e9 := litP_run lComma (numChars ov ++ (lComma ++ (numChars nv ++ lEndNl)))
  have e10 := takeWhile1_num_comma ov (numChars nv ++ lEndNl)
  have e11 := litP_run lComma (numChars nv ++ lEndNl)
  have e12 := takeWhile1_num_end nv
  have e13 : litP lEnd lEndNl = some ('\n' :: []) := rfl
  simp [editMatchAt, e1, e2, e3, e4, e5, e6, e7, e8, e9, e10, e11, e12, e13, Option.bind]

/-- startExp matches a serialized start line at its head. -/
lemma startMatchAt_ok (id : List Char) (h : uuidShape id) :
    startMatchAt (lAngle ++ (id ++ lStartNl)) = some id := by
  have e1 := litP_run lAngle (id ++ lStartNl)
  have e2 := uuidAt_run id lStartNl h
  have e3 : litP lStart lStartNl = some ('\n' :: []) := rfl
  simp [startMatchAt, e1, e2, e3, Option.bind]

/-- commitExp matches a serialized commit line at its head. -/
lemma commitMatchAt_ok (id : List Char) (h : uuidShape id) :
    commitMatchAt (lAngle ++ (id ++ lCommitNl)) = some id := by
  have e1 := litP_run lAngle (id ++ lCommitNl)
  have e2 := uuidAt_run id lCommitNl h
  have e3 : litP lCommit lCommitNl = some ('\n' :: []) := rfl
  simp [commitMatchAt, e1, e2, e3, Option.bind]

/-- The checkpoint star stops cleanly at "checkpoint >\n". -/
lemma cpStar_nil (fuel : Nat) (h : 0 < fuel) :
    cpStar fuel lCheckpointNl = some ([], lCheckpointNl) := by
  cases fuel with
  | zero => exact absurd h (by omega)
  | succ f => simp [cpStar, show uuidAt lCheckpointNl = none from rfl]

/-- The checkpoint star consumes exactly the joined uuids of a
checkpoint body. -/
lemma cpStar_run : ∀ (ids : List (List Char)) (fuel : Nat),
    (∀ u ∈ ids, uuidShape u) → ids.length < fuel →
    cpStar fuel (cpBody ids) = some (ids, lCheckpointNl) := by
  intro ids
  induction ids with
  | nil => intro fuel h hb; exact cpStar_nil fuel (by omega)
  | cons u rest ih =>
    intro fuel h hb
    have hu := h u (List.mem_cons_self u rest)
    cases fuel with
    | zero => exact absurd hb (Nat.not_lt_zero _)
    | succ f =>
      cases rest with
      | nil =>
        rw [show cpBody [u] = u ++ (' ' :: lCheckpointNl) from rfl]
        simp [cpStar, uuidAt_run u (' ' :: lCheckpointNl) hu,
          cpStar_nil f (by simpa using hb), show isSpaceChar ' ' = true from rfl]
      | cons u2 rest2 =>
        rw [show cpBody (u :: u2 :: rest2) = u ++ (',' :: ' ' :: cpBody (u2 :: rest2)) from rfl]
        simp [cpStar, uuidAt_run u (',' :: ' ' :: cpBody (u2 :: rest2)) hu,
          ih f (fun v hv => h v (List.mem_cons_of_mem u hv)) (by simpa using hb),
          show isSpaceChar ' ' = true from rfl]

/-- The number of joined ids is bounded by the checkpoint body length. -/
lemma cpBody_length_ge : ∀ ids : List (List Char), ids.length ≤ (cpBody ids).length := by
  intro ids
  induction ids with
  | nil => simp
  | cons u rest ih =>
    cases rest with
    | nil => simp [cpBody, lCheckpointNl]
    | cons u2 rest2 =>
      calc (u :: u2 :: rest2).length = (u2 :: rest2).length + 1 := by simp
      _ ≤ (cpBody (u2 :: rest2)).length + 1 := by omega
      _ ≤ (u ++ (lComma ++ cpBody (u2 :: rest2))).length := by simp [lComma]; omega

/-- checkpointExp matches a serialized checkpoint line at its head. -/
lemma checkpointMatchAt_ok (ids : List (List Char)) (h : ∀ u ∈ ids, uuidShape u) :
    checkpointMatchAt (lAngle ++ cpBody ids) = some () := by
  have e1 := litP_run lAngle (cpBody ids)
  have e2 := cpStar_run ids ((cpBody ids).length + 1) h
    (by have := cpBody_length_ge ids; omega)
  have e3 : litP lCheckpoint lCheckpointNl = some ('\n' :: []) := rfl
  simp [checkpointMatchAt, e1, e2, e3, Option.bind]

/-- findUuid skips a non-hex head character. -/
lemma findUuid_skip (fuel : Nat) (c : Char) (cs : List Char) (hc : isHexLower c = false) :
    findUuid (fuel + 1) (c :: cs) = findUuid fuel cs := by
  simp [findUuid, uuidAt_head_none c cs hc]

/-- findUuid returns a uuid-shaped prefix. -/
lemma findUuid_hit (fuel : Nat) (id rest : List Char) (h : uuidShape id) :
    findUuid (fuel + 1) (id ++ rest) = some id := by
  simp [findUuid, uuidAt_run id rest h]

/-- uuidExp.FindString on a log line "< uuid…" returns its uuid. -/
lemma findUuid_line (id Y : List Char) (h : uuidShape id) :
    findUuid ((lAngle ++ (id ++ Y)).length + 1) (lAngle ++ (id ++ Y)) = some id := by
  rw [show (lAngle ++ (id ++ Y)).length + 1 = (((id ++ Y).length + 1) + 1) + 1 from by
    simp only [List.length_append, lAngle, List.length_cons, List.length_nil]
    omega]
  rw [show lAngle ++ (id ++ Y) = '<' :: ' ' :: (id ++ Y) from rfl]
  rw [findUuid_skip _ '<' _ (by decide), findUuid_skip _ ' ' _ (by decide)]
  exact findUuid_hit _ id Y h

/-- findAllUuids skips a non-hex head character. -/
lemma findAll_skip (fuel : Nat) (c : Char) (cs : List Char) (hc : isHexLower c = false) :
    findAllUuids (fuel + 1) (c :: cs) = findAllUuids fuel cs := by
  simp [findAllUuids, uuidAt_head_none c cs hc]

/-- findAllUuids finds nothing when no suffix starts with a uuid. -/
lemma findAll_none (s : List Char) (h : ∀ t, t <:+ s → uuidAt t = none) :
    ∀ fuel, findAllUuids fuel s = [] := by
  intro fuel
  induction fuel generalizing s with
  | zero => rfl
  | succ f ih =>
    have h0 := h s (List.suffix_refl s)
    cases s with
    | nil => simp [findAllUuids, h0]
    | cons c cs =>
      simp only [findAllUuids, h0]
      exact ih cs (fun t ht => h t (ht.trans (List.suffix_cons c cs)))

/-- No suffix of "checkpoint >\n" starts with a uuid. -/
lemma cpLit_no_uuid : ∀ t, t <:+ lCheckpointNl → uuidAt t = none := by
  have hall : ∀ t ∈ lCheckpointNl.tails, uuidAt t = none := by decide
  exact fun t ht => hall t ((List.mem_tails _ _).mpr ht)

/-- findAllUuids on a checkpoint body returns exactly the joined ids. -/
lemma findAll_cpBody : ∀ (ids : List (List Char)) (fuel : Nat),
    (∀ u ∈ ids, uuidShape u) → (cpBody ids).length < fuel →
    findAllUuids fuel (cpBody ids) = ids := by
  intro ids
  induction ids with
  | nil => intro fuel h hb; exact findAll_none lCheckpointNl cpLit_no_uuid fuel
  | cons u rest ih =>
    intro fuel h hb
    have hu := h u (List.mem_cons_self u rest)
    have hul := uuidShape_length u hu
    cases fuel with
    | zero => exact absurd hb (Nat.not_lt_zero _)
    | succ f =>
      cases rest with
      | nil =>
        rw [show cpBody [u] = u ++ (' ' :: lCheckpointNl) from rfl]
        rw [show findAllUuids (f + 1) (u ++ (' ' :: lCheckpointNl)) =
            u :: findAllUuids f (' ' :: lCheckpointNl) from by
          simp [findAllUuids, uuidAt_run u _ hu]]
        cases f with
        | zero =>
          exfalso
          rw [show cpBody [u] = u ++ (' ' :: lCheckpointNl) from rfl] at hb
          simp [List.length_append, hul, lCheckpointNl] at hb
        | succ f2 =>
          rw [findAll_skip f2 ' ' _ (by decide),
            findAll_none lCheckpointNl cpLit_no_uuid f2]
      | cons u2 rest2 =>
        rw [show cpBody (u :: u2 :: rest2) = u ++ (',' :: ' ' :: cpBody (u2 :: rest2)) from rfl]
        rw [show findAllUuids (f + 1) (u ++ (',' :: ' ' :: cpBody (u2 :: rest2))) =
            u :: findAllUuids f (',' :: ' ' :: cpBody (u2 :: rest2)) from by
          simp [findAllUuids, uuidAt_run u _ hu]]
        rw [show cpBody (u :: u2 :: rest2) = u ++ (',' :: ' ' :: cpBody (u2 :: rest2)) from rfl]
          at hb
        have hblen : (cpBody (u2 :: rest2)).length + 38 < f + 1 := by
          simp only [List.length_append, List.length_cons, hul] at hb
          omega
        cases f with
        | zero => omega
        | succ f2 =>
          cases f2 with
          | zero => omega
          | succ f3 =>
            rw [findAll_skip _ ',' _ (by decide), findAll_skip _ ' ' _ (by decide),
              ih f3 (fun v hv => h v (List.mem_cons_of_mem u hv)) (by omega)]

/-- uuidExp.FindAllString on a checkpoint line returns the listed ids. -/
lemma findAll_line (ids : List (List Char)) (h : ∀ u ∈ ids, uuidShape u) :
    findAllUuids ((lAngle ++ cpBody ids).length + 1) (lAngle ++ cpBody ids) = ids := by
  rw [show (lAngle ++ cpBody ids).length + 1 = (((cpBody ids).length + 1) + 1) + 1 from by
    simp only [List.length_append, lAngle, List.length_cons, List.length_nil]
    omega]
  rw [show lAngle ++ cpBody ids = '<' :: ' ' :: cpBody ids from rfl]
  rw [findAll_skip _ '<' _ (by decide), findAll_skip _ ' ' _ (by decide)]
  exact findAll_cpBody ids _ h (by omega)

/-- An angle-bracket-anchored matcher fails on every suffix of a line
whose body (after "< ") contains no angle bracket and whose head
position fails. -/
lemma scan_none_line {α : Type} (m : List Char → Option α)
    (hshape : ∀ t r, m t = some r → ∃ u, t = '<' :: u)
    (Y : List Char) (h0 : m (lAngle ++ Y) = none) (hY : ∀ c ∈ Y, c ≠ '<') :
    scan m (lAngle ++ Y) = none := by
  have hbody : ∀ c ∈ ' ' :: Y, c ≠ '<' := by
    intro c hc
    rcases List.mem_cons.mp hc with rfl | hc2
    · decide
    · exact hY c hc2
  exact scan_none_of_shape m hshape '<' (' ' :: Y) h0 hbody

/-- If a table's Find is none, the underlying B+Tree entry scan fails. -/
lemma find_none_of_tableFind_none_btree (es : List (Int × Int)) (k : Int)
    (h : tableFind (Table.btreeT es) k = none) :
    es.find? (fun kv => kv.1 == k) = none := by
  cases hf : es.find? (fun kv => kv.1 == k) with
  | none => rfl
  | some kv => simp [tableFind, hf] at h

/-- If a table's Find is none, the underlying hash entry scan fails. -/
lemma find_none_of_tableFind_none_hash (es : List (Int × Int)) (k : Int)
    (h : tableFind (Table.hashT es) k = none) :
    es.find? (fun kv => kv.1 == k) = none := by
  cases hf : es.find? (fun kv => kv.1 == k) with
  | none => rfl
  | some kv => simp [tableFind, hf] at h

/-- Update succeeds on either index when the key is present. -/
lemma tableUpdate_ok_of_isSome (t : Table) (k v : Int)
    (h : (tableFind t k).isSome) : ∃ t2, tableUpdate t k v = Except.ok t2 := by
  cases t with
  | btreeT es =>
    cases hf : es.find? (fun kv => kv.1 == k) with
    | none => simp [tableFind, hf] at h
    | some kv => exact ⟨Table.btreeT (updateFirst es k v), by simp [tableUpdate, hf]⟩
  | hashT es =>
    cases hf : es.find? (fun kv => kv.1 == k) with
    | none => simp [tableFind, hf] at h
    | some kv => exact ⟨Table.hashT (updateFirst es k v), by simp [tableUpdate, hf]⟩

/-- Update fails on either index when the key is absent. -/
lemma tableUpdate_error_of_none (t : Table) (k v : Int)
    (h : tableFind t k = none) : ∃ msg, tableUpdate t k v = Except.error msg := by
  cases t with
  | btreeT es =>
    have hf := find_none_of_tableFind_none_btree es k h
    exact ⟨"cannot update non-existent entry", by simp [tableUpdate, hf]⟩
  | hashT es =>
    have hf := find_none_of_tableFind_none_hash es k h
    exact ⟨"key not found, update aborted", by simp [tableUpdate, hf]⟩

/-- Insert succeeds on either index when the key is absent. -/
lemma tableInsert_ok_of_none (t : Table) (k v : Int)
    (h : tableFind t k = none) : ∃ t2, tableInsert t k v = Except.ok t2 := by
  cases t with
  | btreeT es =>
    have hf := find_none_of_tableFind_none_btree es k h
    exact ⟨Table.btreeT (insertSorted es k v), by simp [tableInsert, hf]⟩
  | hashT es => exact ⟨Table.hashT (es ++ [(k, v)]), rfl⟩

/-- Removing an absent key leaves the entry list unchanged. -/
lemma removeFirst_eq_of_find_none (es : List (Int × Int)) (k : Int)
    (h : es.find? (fun kv => kv.1 == k) = none) : removeFirst es k = es := by
  induction es with
  | nil => rfl
  | cons kv rest ih =>
    obtain ⟨k2, v2⟩ := kv
    simp only [List.find?] at h
    cases hk : (k2 == k) with
    | true => rw [hk] at h; exact absurd h (by simp)
    | false =>
      rw [hk] at h
      have hk2 : ¬(k2 = k) := by simpa using hk
      simp only [removeFirst, if_neg hk2]
      rw [ih h]

/-- C1, counterexample to the original claim: redoing a delete of a missing
key is not always a no-op. On a hash-indexed table, HashBucket.Delete
returns a key-not-found error, HandleDelete propagates it, and the redo
switch has no fallback for deletes, so redo fails. -/
theorem c1_redo_delete_missing_counterexample :
    redo c1Db { tablename := "h", act := RedoAction.deleteA, key := 0, oldval := 0, newval := 0 } =
      Except.error "key not found, delete aborted" := by rfl

/-- C1 (amended): during the redo pass, for an edit record on an open
table, a redo of an insert that collides with an existing key is
reinterpreted as an update of that key to the new value, and a redo of an
update on a missing key is reinterpreted as an insert of the new value —
both returning success. A redo of a delete of a missing key is a
successful no-op only on a B+Tree-indexed table; on a hash-indexed table
it returns the bucket's key-not-found error. -/
theorem c1_redo_reinterpretation (db : Database) (rec : EditRec) (t : Table)
    (hget : getTable db rec.tablename = some t) :
    (rec.act = RedoAction.insertA → (tableFind t rec.key).isSome →
      ∃ t2, tableUpdate t rec.key rec.newval = Except.ok t2 ∧
        redo db rec = Except.ok (dbSet db rec.tablename t2)) ∧
    (rec.act = RedoAction.updateA → tableFind t rec.key = none →
      ∃ t2, tableInsert t rec.key rec.newval = Except.ok t2 ∧
        redo db rec = Except.ok (dbSet db rec.tablename t2)) ∧
    (rec.act = RedoAction.deleteA → tableFind t rec.key = none →
      ((∀ es, t = Table.btreeT es → redo db rec = Except.ok (dbSet db rec.tablename t)) ∧
       (∀ es, t = Table.hashT es →
         redo db rec = Except.error "key not found, delete aborted"))) := by
  obtain ⟨tn, act, k, ov, nv⟩ := rec
  replace hget : getTable db tn = some t := hget
  refine ⟨?_, ?_, ?_⟩
  · intro hact hsome
    replace hact : act = RedoAction.insertA := hact
    subst hact
    obtain ⟨v0, hv0⟩ := Option.isSome_iff_exists.mp hsome
    obtain ⟨t2, ht2⟩ := tableUpdate_ok_of_isSome t k nv hsome
    refine ⟨t2, ht2, ?_⟩
    simp only [redo, HandleInsert, HandleUpdate, hget, hv0, ht2]
  · intro hact hnone
    replace hact : act = RedoAction.updateA := hact
    subst hact
    obtain ⟨msg, hmsg⟩ := tableUpdate_error_of_none t k nv hnone
    obtain ⟨t2, ht2⟩ := tableInsert_ok_of_none t k nv hnone
    refine ⟨t2, ht2, ?_⟩
    simp only [redo, HandleUpdate, HandleInsert, hget, hmsg, hnone, ht2]
  · intro hact hnone
    replace hact : act = RedoAction.deleteA := hact
    subst hact
    constructor
    · rintro es rfl
      have hf := find_none_of_tableFind_none_btree es k hnone
      have hrm := removeFirst_eq_of_find_none es k hf
      simp only [redo, HandleDelete, hget, tableDelete, hrm]
    · rintro es rfl
      have hf := find_none_of_tableFind_none_hash es k hnone
      simp only [redo, HandleDelete, hget, tableDelete, hf]
      simp

/-- C1 witness: on the concrete database c1Db, redoing an insert of key 1
into the B+Tree table b (which already holds key 1) succeeds as an update
to the new value. -/
theorem c1_redo_witness :
    ∃ t2, tableUpdate (Table.btreeT [(1, 10)]) 1 7 = Except.ok t2 ∧
      redo c1Db { tablename := "b", act := RedoAction.insertA, key := 1, oldval := 0, newval := 7 } =
        Except.ok (dbSet c1Db "b" t2) := by
  have h := c1_redo_reinterpretation c1Db
    { tablename := "b", act := RedoAction.insertA, key := 1, oldval := 0, newval := 7 }
    (Table.btreeT [(1, 10)]) (by decide)
  exact h.1 rfl (by decide)

/-- C7, counterexample to the original claim: an edit record with the
signed 64-bit key -1 serializes to a line whose key field "-1" matches
none of editExp's \d+ captures (and no other pattern), so parsing the
serialized line fails instead of returning the record. -/
theorem c7_negative_value_counterexample :
    logFromString (logToString
        (LogRecord.edit zeroUuid ('t' :: []) RedoAction.insertA (-1) 0 0)) =
      Except.error "could not parse log" := by rfl

/-- C7 (amended): serializing and re-parsing a log record is the identity
for every record the repository's writers can produce: table and edit
records whose names are nonempty word-character strings, edit records
whose key, old value and new value are non-negative int64 values, and
start, commit and checkpoint records with canonical uuid strings. (For
negative edit values the round trip fails, see the counterexample.) -/
theorem c7_log_round_trip (rec : LogRecord) (h : recWF rec = true) :
    logFromString (logToString rec) = Except.ok rec := by
  cases rec with
  | table ty nm =>
    simp only [recWF, Bool.and_eq_true] at h
    obtain ⟨hty, hnm⟩ := h
    have hs := scan_some tableMatchAt _ _ (tableMatchAt_ok ty nm hty hnm)
    simp only [logToString, logFromString, hs]
  | edit id tn a k ov nv =>
    simp only [recWF, Bool.and_eq_true, decide_eq_true_eq] at h
    obtain ⟨⟨⟨⟨hid, htn⟩, hk0, hkb⟩, ho0, hob⟩, hn0, hnb⟩ := h
    have hShape := uuidShape_of_uuidOk id hid
    have hline : logToString (.edit id tn a k ov nv) =
        lAngle ++ (id ++ (lComma ++ (tn ++ (lComma ++ (actionChars a ++ (lComma ++
          (numChars k.toNat ++ (lComma ++ (numChars ov.toNat ++ (lComma ++
            (numChars nv.toNat ++ lEndNl))))))))))) := by
      simp only [logToString, intChars_nonneg k hk0, intChars_nonneg ov ho0,
        intChars_nonneg nv hn0]
    rw [hline]
    have hrest : ∀ c ∈ (lComma ++ (tn ++ (lComma ++ (actionChars a ++ (lComma ++
        (numChars k.toNat ++ (lComma ++ (numChars ov.toNat ++ (lComma ++
          (numChars nv.toNat ++ lEndNl)))))))))), c ≠ '<' :=
      noLt_append (by decide) (noLt_append (name_no_lt tn htn) (noLt_append (by decide)
        (noLt_append (action_no_lt a) (noLt_append (by decide) (noLt_append (num_no_lt _)
          (noLt_append (by decide) (noLt_append (num_no_lt _) (noLt_append (by decide)
            (noLt_append (num_no_lt _) (by decide))))))))))
    have hY : ∀ c ∈ id ++ (lComma ++ (tn ++ (lComma ++ (actionChars a ++ (lComma ++
        (numChars k.toNat ++ (lComma ++ (numChars ov.toNat ++ (lComma ++
          (numChars nv.toNat ++ lEndNl)))))))))), c ≠ '<' :=
      noLt_append (uuid_no_lt id hShape) hrest
    have htab := scan_none_line tableMatchAt tableMatchAt_shape _
      (tableMatchAt_uuid_none id _ hShape) hY
    have hedit := scan_some editMatchAt _ _
      (editMatchAt_ok id tn a k.toNat ov.toNat nv.toNat hShape htn)
    simp only [logFromString, htab, hedit]
    rw [goAtoi_numChars k.toNat (by omega), goAtoi_numChars ov.toNat (by omega),
      goAtoi_numChars nv.toNat (by omega)]
    simp [Int.toNat_of_nonneg hk0, Int.toNat_of_nonneg ho0, Int.toNat_of_nonneg hn0]
  | start id =>
    have hShape := uuidShape_of_uuidOk id h
    have hY : ∀ c ∈ id ++ lStartNl, c ≠ '<' :=
      noLt_append (uuid_no_lt id hShape) (by decide)
    have htab := scan_none_line tableMatchAt tableMatchAt_shape _
      (tableMatchAt_uuid_none id lStartNl hShape) hY
    have hedit := scan_none_line editMatchAt editMatchAt_shape _
      (editMatchAt_start_none id hShape) hY
    have hstart := scan_some startMatchAt _ _ (startMatchAt_ok id hShape)
    have hfind := findUuid_line id lStartNl hShape
    simp only [logToString, logFromString, htab, hedit, hstart, hfind]
  | commit id =>
    have hShape := uuidShape_of_uuidOk id h
    have hY : ∀ c ∈ id ++ lCommitNl, c ≠ '<' :=
      noLt_append (uuid_no_lt id hShape) (by decide)
    have htab := scan_none_line tableMatchAt tableMatchAt_shape _
      (tableMatchAt_uuid_none id lCommitNl hShape) hY
    have hedit := scan_none_line editMatchAt editMatchAt_shape _
      (editMatchAt_commit_none id hShape) hY
    have hstart := scan_none_line startMatchAt startMatchAt_shape _
      (startMatchAt_commit_none id hShape) hY
    have hcommit := scan_some commitMatchAt _ _ (commitMatchAt_ok id hShape)
    have hfind := findUuid_line id lCommitNl hShape
    simp only [logToString, logFromString, htab, hedit, hstart, hcommit, hfind]
  | checkpoint ids =>
    cases ids with
    | nil => rfl
    | cons u rest =>
      have hall : ∀ v ∈ u :: rest, uuidShape v := fun v hv =>
        uuidShape_of_uuidOk v (List.all_eq_true.mp h v hv)
      have hu := hall u (List.mem_cons_self u rest)
      obtain ⟨Z, hZ⟩ : ∃ Z, cpBody (u :: rest) = u ++ Z := by
        cases rest with
        | nil => exact ⟨' ' :: lCheckpointNl, rfl⟩
        | cons u2 rest2 => exact ⟨lComma ++ cpBody (u2 :: rest2), rfl⟩
      have hY : ∀ c ∈ cpBody (u :: rest), c ≠ '<' := cpBody_no_lt _ hall
      have htab := scan_none_line tableMatchAt tableMatchAt_shape _
        (by rw [hZ]; exact tableMatchAt_uuid_none u Z hu) hY
      have hedit := scan_none_line editMatchAt editMatchAt_shape _
        (editMatchAt_cp_none u rest hu (fun v hv => hall v (List.mem_cons_of_mem u hv))) hY
      have hstart := scan_none_line startMatchAt startMatchAt_shape _
        (startMatchAt_cp_none u rest hu) hY
      have hcommit := scan_none_line commitMatchAt commitMatchAt_shape _
        (commitMatchAt_cp_none u rest hu) hY
      have hcp := scan_some checkpointMatchAt _ _ (checkpointMatchAt_ok (u :: rest) hall)
      have hfindall := findAll_line (u :: rest) hall
      simp only [logToString, logFromString, htab, hedit, hstart, hcommit, hcp, hfindall]

/-- C7 witness: a concrete edit record with key 5, old value 0 and new
value 7 round-trips through its serialized log line. -/
theorem c7_log_round_trip_witness :
    logFromString (logToString
        (LogRecord.edit zeroUuid ('t' :: []) RedoAction.insertA 5 0 7)) =
      Except.ok (LogRecord.edit zeroUuid ('t' :: []) RedoAction.insertA 5 0 7) :=
  c7_log_round_trip (LogRecord.edit zeroUuid ('t' :: []) RedoAction.insertA 5 0 7)
    (by decide)

/-- C2: for every multiset of edges built by any sequence of AddEdge and
RemoveEdge calls on the waits-for graph, if DetectCycle returns true then the
edge multiset contains a directed cycle; the detector never reports a
deadlock when no cycle exists. -/
theorem c2_detectCycle_no_false_positives (ops : List GraphOp) :
    DetectCycle (buildGraph ops) = true → hasCycle (buildGraph ops) := by
  intro h
  unfold DetectCycle at h
  cases hg : buildGraph ops with
  | nil => rw [hg] at h; simp at h
  | cons e rest =>
    rw [hg] at h
    exact hg ▸ dfs_sound (e :: rest) ((e :: rest).length + 1) e.efrom [] e.efrom trivial rfl h

/-- Closed witness for C2: a two-edge cycle built by AddEdge calls is
detected, and the theorem then yields an actual directed cycle. -/
theorem c2_detectCycle_witness :
    DetectCycle (buildGraph [GraphOp.add 1 2, GraphOp.add 2 1]) = true ∧
      hasCycle (buildGraph [GraphOp.add 1 2, GraphOp.add 2 1]) :=
  ⟨by decide, c2_detectCycle_no_false_positives [GraphOp.add 1 2, GraphOp.add 2 1] (by decide)⟩

end DinoDB
